import Mathlib

/-!
# aeskeyfind: a shallow embedding of the AES key-schedule detector

Embedding of `aeskeyfind.c` (`AES_xtime`, `unconvert_key`, `entropy`, `find_keys`, the length
guard of `main`).  Machine words are natural numbers: a `uint32_t` is a `Nat` below `2 ^ 32`,
a byte a `Nat` below `256`; `xor_count_*` (C `int`) and `gThreshold` (C `long`) are `Int`.
The helpers that `aeskeyfind.c` takes from `util.h` and `aes.h` (`popcount`, `sbox`,
`sbox_bytes`, `key_core`, the round constants) are not part of the source tree; they are
modelled from section 4.1 of the specification and marked as such.
-/

namespace AesKeyFind

/-! ## Helpers declared in `util.h` / `aes.h` -/

/-- Modelled from the spec: `popcount(w: u32) -> int` of `util.h` (absent from the sources) is
the Hamming weight, the count of set bits among the 32 bits of `w`. -/
def popcount (w : Nat) : Nat :=
  ((List.range 32).filter (fun i => w.testBit i)).length

/-- Modelled from the spec: the table `sbox[0..256]` of `aes.h` (absent from the sources) is
the AES forward S-box. -/
def sbox_table : List Nat :=
[
  0x63, 0x7c, 0x77, 0x7b, 0xf2, 0x6b, 0x6f, 0xc5, 0x30, 0x01, 0x67, 0x2b, 0xfe, 0xd7, 0xab, 0x76,
  0xca, 0x82, 0xc9, 0x7d, 0xfa, 0x59, 0x47, 0xf0, 0xad, 0xd4, 0xa2, 0xaf, 0x9c, 0xa4, 0x72, 0xc0,
  0xb7, 0xfd, 0x93, 0x26, 0x36, 0x3f, 0xf7, 0xcc, 0x34, 0xa5, 0xe5, 0xf1, 0x71, 0xd8, 0x31, 0x15,
  0x04, 0xc7, 0x23, 0xc3, 0x18, 0x96, 0x05, 0x9a, 0x07, 0x12, 0x80, 0xe2, 0xeb, 0x27, 0xb2, 0x75,
  0x09, 0x83, 0x2c, 0x1a, 0x1b, 0x6e, 0x5a, 0xa0, 0x52, 0x3b, 0xd6, 0xb3, 0x29, 0xe3, 0x2f, 0x84,
  0x53, 0xd1, 0x00, 0xed, 0x20, 0xfc, 0xb1, 0x5b, 0x6a, 0xcb, 0xbe, 0x39, 0x4a, 0x4c, 0x58, 0xcf,
  0xd0, 0xef, 0xaa, 0xfb, 0x43, 0x4d, 0x33, 0x85, 0x45, 0xf9, 0x02, 0x7f, 0x50, 0x3c, 0x9f, 0xa8,
  0x51, 0xa3, 0x40, 0x8f, 0x92, 0x9d, 0x38, 0xf5, 0xbc, 0xb6, 0xda, 0x21, 0x10, 0xff, 0xf3, 0xd2,
  0xcd, 0x0c, 0x13, 0xec, 0x5f, 0x97, 0x44, 0x17, 0xc4, 0xa7, 0x7e, 0x3d, 0x64, 0x5d, 0x19, 0x73,
  0x60, 0x81, 0x4f, 0xdc, 0x22, 0x2a, 0x90, 0x88, 0x46, 0xee, 0xb8, 0x14, 0xde, 0x5e, 0x0b, 0xdb,
  0xe0, 0x32, 0x3a, 0x0a, 0x49, 0x06, 0x24, 0x5c, 0xc2, 0xd3, 0xac, 0x62, 0x91, 0x95, 0xe4, 0x79,
  0xe7, 0xc8, 0x37, 0x6d, 0x8d, 0xd5, 0x4e, 0xa9, 0x6c, 0x56, 0xf4, 0xea, 0x65, 0x7a, 0xae, 0x08,
  0xba, 0x78, 0x25, 0x2e, 0x1c, 0xa6, 0xb4, 0xc6, 0xe8, 0xdd, 0x74, 0x1f, 0x4b, 0xbd, 0x8b, 0x8a,
  0x70, 0x3e, 0xb5, 0x66, 0x48, 0x03, 0xf6, 0x0e, 0x61, 0x35, 0x57, 0xb9, 0x86, 0xc1, 0x1d, 0x9e,
  0xe1, 0xf8, 0x98, 0x11, 0x69, 0xd9, 0x8e, 0x94, 0x9b, 0x1e, 0x87, 0xe9, 0xce, 0x55, 0x28, 0xdf,
  0x8c, 0xa1, 0x89, 0x0d, 0xbf, 0xe6, 0x42, 0x68, 0x41, 0x99, 0x2d, 0x0f, 0xb0, 0x54, 0xbb, 0x16]

/-- Modelled from the spec: the lookup `sbox[x]` in the S-box of `aes.h`. -/
def sbox (x : Nat) : Nat := sbox_table.getD x 0

/-- Modelled from the spec: `xtime(x: u8) -> u8` is `(x<<1) XOR (0x1b if top bit of x else 0)`,
the doubling of GF(2^8), truncated to a byte. -/
def xtime (x : Nat) : Nat :=
  ((x <<< 1) ^^^ (if x &&& 0x80 ≠ 0 then 0x1b else 0)) % 256

/-- Modelled from the spec: the round constants of `aes.h` (absent from the sources), "derived
by iterated `xtime` starting from 1" and indexed by schedule row number: row 1 has constant 1,
row `r + 1` the double of row `r`.  Row 0 is never used by the detector. -/
def rcon (round : Nat) : Nat := xtime^[round - 1] 1

/-- Modelled from the spec: byte `n` of a 32-bit word, byte 0 the least significant (the
accessor of `util.h`, absent from the sources). -/
def get_byte (w n : Nat) : Nat := (w >>> (8 * n)) &&& 0xff

/-- Modelled from the spec: `sbox_bytes(w: u32) -> u32` of `aes.h` returns
`sbox[b0] | sbox[b1]<<8 | sbox[b2]<<16 | sbox[b3]<<24`, the S-box applied to each byte of `w`
with the byte positions preserved. -/
def sbox_bytes (w : Nat) : Nat :=
  sbox (get_byte w 0) ||| (sbox (get_byte w 1) <<< 8) ||| (sbox (get_byte w 2) <<< 16)
    ||| (sbox (get_byte w 3) <<< 24)

/-- Modelled from the spec: the byte rotation inside `key_core`, "rotate the byte order of `w`
by one position".  In the detector's word convention (first schedule byte least significant)
the byte at position `j + 1` moves to position `j` and byte 0 to position 3. -/
def rot_bytes (w : Nat) : Nat := ((w >>> 8) ||| (w <<< 24)) % 2 ^ 32

/-- Modelled from the spec: `key_core(w: u32, round: int) -> u32` of `aes.h` (absent from the
sources): rotate the byte order of `w` by one position, apply the S-box to every byte, XOR the
round constant of `round` into the lowest-order byte. -/
def key_core (w round : Nat) : Nat := sbox_bytes (rot_bytes w) ^^^ rcon round

/-! ## `aeskeyfind.c` -/

/-- The constant `TWEAK_INVMIXCOLUMN`. -/
def TWEAK_INVMIXCOLUMN : Nat := 0x1

/-- The constant `TWEAK_REVERSE_ORDER`. -/
def TWEAK_REVERSE_ORDER : Nat := 0x2

/-- The constant `MAX_TWEAKS`. -/
def MAX_TWEAKS : Nat := 0x4

/-- Function `AES_xtime`: `(x&0x80) ? (x<<1)^0x1b : x<<1` on a `uint32_t`, returned as
`unsigned char`. -/
def AES_xtime (x : Nat) : Nat :=
  (if x &&& 0x80 ≠ 0 then ((x <<< 1) % 2 ^ 32) ^^^ 0x1b else (x <<< 1) % 2 ^ 32) % 256

/-- The residual word the AES-128 loop of `find_keys` adds to `xor_count_128` at
`(row, column)`; `map k` is the word `map[k]`. -/
def residual_128 (map : Nat → Nat) (row column : Nat) : Nat :=
  if column = 0 then
    key_core (map (4 * row - 1)) row ^^^ map (4 * (row - 1)) ^^^ map (4 * row)
  else
    (map (4 * row + column - 1) ^^^ map (4 * (row - 1) + column)) ^^^ map (4 * row + column)

/-- The column loop `for (column = 0; column < 4; column++)` of the AES-128 check: `n` columns
remain, `column` is the current one, `xc` the running `xor_count_128`. -/
def columns_128 (map : Nat → Nat) (row : Nat) : Nat → Nat → Int → Int
  | 0, _, xc => xc
  | n + 1, column, xc =>
    columns_128 map row n (column + 1) (xc + (popcount (residual_128 map row column) : Int))

/-- The row loop `for (row = 1; row < 11; row++)` of the AES-128 check with its
`if (xor_count_128 > gThreshold) break;`: `n` rows remain, `row` is the current one. -/
def rows_128 (map : Nat → Nat) (gThreshold : Int) : Nat → Nat → Int → Int
  | 0, _, xc => xc
  | n + 1, row, xc =>
    let xc1 := columns_128 map row 4 0 xc
    if xc1 > gThreshold then xc1 else rows_128 map gThreshold n (row + 1) xc1

/-- The value of `xor_count_128` when the row loop of `find_keys` is left. -/
def xor_count_128 (map : Nat → Nat) (gThreshold : Int) : Int :=
  rows_128 map gThreshold 10 1 0

/-- The residual word the AES-256 loop of `find_keys` adds to `xor_count_256` at
`(row, column)`. -/
def residual_256 (map : Nat → Nat) (row column : Nat) : Nat :=
  if column = 0 then
    key_core (map (8 * row - 1)) row ^^^ map (8 * (row - 1)) ^^^ map (8 * row)
  else if column = 4 then
    sbox_bytes (map (8 * row + 3)) ^^^ map (8 * (row - 1) + 4) ^^^ map (8 * row + 4)
  else
    map (8 * row + column - 1) ^^^ map (8 * (row - 1) + column) ^^^ map (8 * row + column)

/-- The column loop `for (column = 0; column < 8; column++)` of the AES-256 check with its
`if (row == 7 && column == 4) break;`. -/
def columns_256 (map : Nat → Nat) (row : Nat) : Nat → Nat → Int → Int
  | 0, _, xc => xc
  | n + 1, column, xc =>
    if row = 7 ∧ column = 4 then xc
    else columns_256 map row n (column + 1) (xc + (popcount (residual_256 map row column) : Int))

/-- The row loop `for (row = 1; row < 8; row++)` of the AES-256 check with its
`if (xor_count_256 > gThreshold) break;`. -/
def rows_256 (map : Nat → Nat) (gThreshold : Int) : Nat → Nat → Int → Int
  | 0, _, xc => xc
  | n + 1, row, xc =>
    let xc1 := columns_256 map row 8 0 xc
    if xc1 > gThreshold then xc1 else rows_256 map gThreshold n (row + 1) xc1

/-- The value of `xor_count_256` when the row loop of `find_keys` is left. -/
def xor_count_256 (map : Nat → Nat) (gThreshold : Int) : Int :=
  rows_256 map gThreshold 7 1 0

/-- The loop body of `unconvert_key` on one word `w = *k`: the value stored back by `*k++ =`. -/
def unconvert_word (w : Nat) : Nat :=
  let a3 := (w >>> 24) &&& 0xFF
  let a2 := (w >>> 16) &&& 0xFF
  let a1 := (w >>> 8) &&& 0xFF
  let a0 := w &&& 0xFF
  let tmp1 := a0 ^^^ a1 ^^^ a2 ^^^ a3
  let old_a0 := a0
  let a0 := a0 ^^^ (tmp1 ^^^ AES_xtime (a0 ^^^ a1))
  let a1 := a1 ^^^ (tmp1 ^^^ AES_xtime (a1 ^^^ a2))
  let a2 := a2 ^^^ (tmp1 ^^^ AES_xtime (a2 ^^^ a3))
  let a3 := a3 ^^^ (tmp1 ^^^ AES_xtime (a3 ^^^ old_a0))
  ((a3 <<< 24) ||| (a2 <<< 16) ||| (a1 <<< 8) ||| a0) % 2 ^ 32

/-- The loop `for (i = rounds*4; i > 4; i--)` of `unconvert_key`: `n` iterations remain and the
pointer `k` stands at word index `p` of the array. -/
def unconvert_loop : Nat → Nat → List Nat → List Nat
  | 0, _, k => k
  | n + 1, p, k => unconvert_loop n (p + 1) (k.set p (unconvert_word (k.getD p 0)))

/-- Function `unconvert_key(k, rounds)`: after `k += 4` the loop runs `rounds*4 - 4` times. -/
def unconvert_key (k : List Nat) (rounds : Nat) : List Nat :=
  unconvert_loop (rounds * 4 - 4) 4 k

/-- The byte `bmap[j]` of the memory image. -/
def byte_at (bmap : List Nat) (j : Nat) : Nat := bmap.getD j 0

/-- The word `map[k]` for `map = (uint32_t*)&(bmap[i])`: four image bytes from `i + 4*k`, the
first one least significant (the little-endian load of the machines the tool is built for). -/
def word_at (bmap : List Nat) (i k : Nat) : Nat :=
  byte_at bmap (i + 4 * k) + 256 * byte_at bmap (i + 4 * k + 1)
    + 65536 * byte_at bmap (i + 4 * k + 2) + 16777216 * byte_at bmap (i + 4 * k + 3)

/-- The copy `memcpy(dst + 4*drow, src + 4*srow, 4*sizeof(uint32_t))` of one row of four words
from the image window at `i` into the scratch array. -/
def copy_row (bmap : List Nat) (i : Nat) (dst : List Nat) (drow srow : Nat) : List Nat :=
  (((dst.set (4 * drow) (word_at bmap i (4 * srow))).set (4 * drow + 1)
    (word_at bmap i (4 * srow + 1))).set (4 * drow + 2) (word_at bmap i (4 * srow + 2))).set
    (4 * drow + 3) (word_at bmap i (4 * srow + 3))

/-- The loop `for (row = 0; row < 11; row++) memcpy(newmap+4*row, map+4*(10-row), ...)`. -/
def reverse_rows (bmap : List Nat) (i : Nat) : Nat → Nat → List Nat → List Nat
  | 0, _, newmap => newmap
  | n + 1, row, newmap => reverse_rows bmap i n (row + 1) (copy_row bmap i newmap row (10 - row))

/-- The scratch array `newmap[4*11]` that `find_keys` builds at offset `i` for one value of
`tweaks`: the window copied in reverse row order or as it is, then `unconvert_key(map, 10)`
when the bit `TWEAK_INVMIXCOLUMN` is set. -/
def tweak_map (bmap : List Nat) (i tweaks : Nat) : List Nat :=
  let newmap :=
    if tweaks &&& TWEAK_REVERSE_ORDER ≠ 0 then
      reverse_rows bmap i 11 0 (List.replicate 44 0)
    else
      (List.range 44).map (word_at bmap i)
  if tweaks &&& TWEAK_INVMIXCOLUMN ≠ 0 then unconvert_key newmap 10 else newmap

/-- The static variables of `entropy`: the flag `new_call` and the histogram `byte_freq`. -/
structure EntropyState where
  new_call : Bool
  byte_freq : Nat → Int

/-- The static initialisers `new_call = 1`, `byte_freq[256] = {0}`. -/
def entropy_start : EntropyState := ⟨true, fun _ => 0⟩

/-- The statement `byte_freq[b]++` (with `d = 1`) or `byte_freq[b]--` (with `d = -1`). -/
def bump (byte_freq : Nat → Int) (b : Nat) (d : Int) : Nat → Int :=
  fun x => if x = b then byte_freq x + d else byte_freq x

/-- The loop `for (int i=0; i<176; i++) byte_freq[bmap[i]]++;` of the first call. -/
def fill_freq (bmap : List Nat) : Nat → Nat → (Nat → Int) → (Nat → Int)
  | 0, _, byte_freq => byte_freq
  | n + 1, j, byte_freq => fill_freq bmap n (j + 1) (bump byte_freq (byte_at bmap j) 1)

/-- The loop `for (int b=0; b<=0xFF; b++) if (byte_freq[b] > 8) { test = 1; break; }`. -/
def freq_test (byte_freq : Nat → Int) : Bool :=
  (List.range 256).any (fun b => decide (byte_freq b > 8))

/-- Function `entropy(bmap, i)`: the returned `test` and the static state after the call. -/
def entropy (st : EntropyState) (bmap : List Nat) (i : Nat) : Bool × EntropyState :=
  let byte_freq := if st.new_call then fill_freq bmap 176 0 st.byte_freq else st.byte_freq
  let test := freq_test byte_freq
  let byte_freq := bump byte_freq (byte_at bmap i) (-1)
  let byte_freq := bump byte_freq (byte_at bmap (i + 176)) 1
  (test, ⟨false, byte_freq⟩)

/-- One call `print_key(map, num_bits, address)` made by `find_keys`: `map` holds the words of
the table the pointer refers to (60 image words for a 256-bit key, the 44 words of `newmap`
for a 128-bit key).  The field `tweaks` is not an argument of `print_key`; it records the loop
variable `tweaks` at the call (0 for the 256-bit call, made outside the tweak loop). -/
structure KeyReport where
  map : List Nat
  num_bits : Nat
  address : Nat
  tweaks : Nat
deriving DecidableEq, Repr

/-- The key line of `print_key`: the words `map[0 .. num_bits/32)`. -/
def key_line (r : KeyReport) : List Nat := r.map.take (r.num_bits / 32)

/-- The AES-256 check of `find_keys` at offset `i`: the call of `print_key` it makes, if any. -/
def check_256 (bmap : List Nat) (gThreshold : Int) (i : Nat) : List KeyReport :=
  if xor_count_256 (word_at bmap i) gThreshold ≤ gThreshold then
    [⟨(List.range 60).map (word_at bmap i), 256, i, 0⟩]
  else []

/-- The word array `ws` seen as the C array `map`: `map[k]` is `ws[k]`. -/
def as_map (ws : List Nat) : Nat → Nat := fun k => ws.getD k 0

/-- The body of the loop over `tweaks` at offset `i` for one value of `tweaks`. -/
def check_128 (bmap : List Nat) (gThreshold : Int) (i tweaks : Nat) : List KeyReport :=
  let map := tweak_map bmap i tweaks
  if xor_count_128 (as_map map) gThreshold < gThreshold then
    [⟨map, 128, i, tweaks⟩]
  else []

/-- The loop `for (int tweaks = 0; tweaks < MAX_TWEAKS; tweaks++)` at offset `i`. -/
def tweak_loop (bmap : List Nat) (gThreshold : Int) (i : Nat) : Nat → Nat → List KeyReport
  | 0, _ => []
  | n + 1, tweaks =>
    check_128 bmap gThreshold i tweaks ++ tweak_loop bmap gThreshold i n (tweaks + 1)

/-- The part of the body of the scan loop after `if (entropy(bmap,i)) continue;`. -/
def scan_offset (bmap : List Nat) (gThreshold : Int) (i : Nat) : List KeyReport :=
  check_256 bmap gThreshold i ++ tweak_loop bmap gThreshold i MAX_TWEAKS 0

/-- The loop `for (size_t i = 0; i < last; i++)` of `find_keys`: `n` offsets remain, `i` is the
current one, `st` the static state of `entropy`; the result lists the calls of `print_key`
in the order they are made. -/
def scan_loop (bmap : List Nat) (gThreshold : Int) : Nat → Nat → EntropyState → List KeyReport
  | 0, _, _ => []
  | n + 1, i, st =>
    let r := entropy st bmap i
    (if r.1 then [] else scan_offset bmap gThreshold i) ++ scan_loop bmap gThreshold n (i + 1) r.2

/-- Function `find_keys(bmap, last)` in a fresh process (the static state of `entropy` is the
initial one); the progress output on `stderr` is left out. -/
def find_keys (bmap : List Nat) (last : Nat) (gThreshold : Int) : List KeyReport :=
  scan_loop bmap gThreshold last 0 entropy_start

/-- The tail of `main`: `if (len < 240) exit(1)` (here `none`), else `find_keys(image, len-240)`. -/
def aeskeyfind (image : List Nat) (gThreshold : Int) : Option (List KeyReport) :=
  if image.length < 240 then none else some (find_keys image (image.length - 240) gThreshold)

/-! ## FIPS-197: the canonical key schedules and the column transforms

These definitions follow the AES standard, not the detector: words are four bytes in textbook
order, and a schedule is handed to the detector by reading each word little-endian. -/

/-- A word of FIPS-197: four bytes in textbook order, `a0` the first byte in memory. -/
structure FipsWord where
  a0 : Nat
  a1 : Nat
  a2 : Nat
  a3 : Nat
deriving DecidableEq, Repr

/-- The transformation `RotWord` of FIPS-197: `[a0,a1,a2,a3]` becomes `[a1,a2,a3,a0]`. -/
def RotWord (w : FipsWord) : FipsWord := ⟨w.a1, w.a2, w.a3, w.a0⟩

/-- The transformation `SubWord` of FIPS-197: the S-box on each byte. -/
def SubWord (w : FipsWord) : FipsWord := ⟨sbox w.a0, sbox w.a1, sbox w.a2, sbox w.a3⟩

/-- The round constant word `Rcon[i] = [x^(i-1), 00, 00, 00]` of FIPS-197. -/
def Rcon (i : Nat) : FipsWord := ⟨xtime^[i - 1] 1, 0, 0, 0⟩

/-- Bytewise XOR of two words. -/
def xorWord (u v : FipsWord) : FipsWord :=
  ⟨u.a0 ^^^ v.a0, u.a1 ^^^ v.a1, u.a2 ^^^ v.a2, u.a3 ^^^ v.a3⟩

/-- The word `w[i]` of the key expansion of FIPS-197 (figure 11) from `w[i-1]` and `w[i-Nk]`. -/
def fips_word (Nk i : Nat) (prev back : FipsWord) : FipsWord :=
  let temp :=
    if i % Nk = 0 then xorWord (SubWord (RotWord prev)) (Rcon (i / Nk))
    else if Nk > 6 ∧ i % Nk = 4 then SubWord prev
    else prev
  xorWord back temp

/-- The loop of the key expansion: `n` more words are appended to the words `w` so far. -/
def fips_expand (Nk : Nat) : Nat → List FipsWord → List FipsWord
  | 0, w => w
  | n + 1, w =>
    fips_expand Nk n
      (w ++ [fips_word Nk w.length (w.getD (w.length - 1) ⟨0, 0, 0, 0⟩)
        (w.getD (w.length - Nk) ⟨0, 0, 0, 0⟩)])

/-- The first `Nk` words of the schedule: the key bytes, four per word. -/
def key_words (key : List Nat) (Nk : Nat) : List FipsWord :=
  (List.range Nk).map (fun j =>
    ⟨key.getD (4 * j) 0, key.getD (4 * j + 1) 0, key.getD (4 * j + 2) 0, key.getD (4 * j + 3) 0⟩)

/-- The routine `KeyExpansion` of FIPS-197: the `4 * (Nr + 1)` words of the expanded key. -/
def KeyExpansion (key : List Nat) (Nk Nr : Nat) : List FipsWord :=
  fips_expand Nk (4 * (Nr + 1) - Nk) (key_words key Nk)

/-- A word read as one little-endian 32-bit number (first byte least significant). -/
def le_word (w : FipsWord) : Nat := w.a0 + 256 * w.a1 + 65536 * w.a2 + 16777216 * w.a3

/-- The canonical AES-128 schedule of a 16-byte key as 44 little-endian words. -/
def aes128_words (key : List Nat) : List Nat := (KeyExpansion key 4 10).map le_word

/-- The canonical AES-256 schedule of a 32-byte key as 60 little-endian words. -/
def aes256_words (key : List Nat) : List Nat := (KeyExpansion key 8 14).map le_word

/-- A word all of whose bytes are below 256. -/
def FipsWord.ok (w : FipsWord) : Prop := w.a0 < 256 ∧ w.a1 < 256 ∧ w.a2 < 256 ∧ w.a3 < 256

/-- A well-formed key of `n` bytes. -/
def is_key (n : Nat) (key : List Nat) : Prop := key.length = n ∧ ∀ b ∈ key, b < 256

instance (n : Nat) (key : List Nat) : Decidable (is_key n key) := by
  unfold is_key; infer_instance

/-! ## Reference notions used to state the properties of the scanner -/

/-- A well-formed memory image: every element is a byte. -/
def is_image (bmap : List Nat) : Prop := ∀ b ∈ bmap, b < 256

instance (bmap : List Nat) : Decidable (is_image bmap) := by
  unfold is_image; infer_instance

/-- The 176 bytes `bmap[i .. i+176)`. -/
def window (bmap : List Nat) (i : Nat) : List Nat := (bmap.drop i).take 176

/-- Some byte value occurs more than 8 times among the 176 bytes from offset `i`. -/
def window_reject (bmap : List Nat) (i : Nat) : Bool :=
  (List.range 256).any (fun b => decide ((window bmap i).count b > 8))

/-- The scan written without the sliding histogram: offsets `i .. i+n)` in ascending order,
each one skipped when its own 176-byte window has a byte value more than 8 times. -/
def scan_windows (bmap : List Nat) (gThreshold : Int) : Nat → Nat → List KeyReport
  | 0, _ => []
  | n + 1, i =>
    (if window_reject bmap i then [] else scan_offset bmap gThreshold i)
      ++ scan_windows bmap gThreshold n (i + 1)

/-- The histogram describes the window at offset `i`: the state of `entropy` between calls. -/
def tracks (st : EntropyState) (bmap : List Nat) (i : Nat) : Prop :=
  st.new_call = false ∧ ∀ b, st.byte_freq b = ((window bmap i).count b : Nat)

/-- The sum of the popcounts of the 40 residual words of rows 1..10, columns 0..3: the
distance of a 44-word buffer from an AES-128 schedule when no row is skipped. -/
def residual_sum_128 (map : Nat → Nat) : Nat :=
  ((List.range 10).map (fun r =>
    ((List.range 4).map (fun c => popcount (residual_128 map (r + 1) c))).sum)).sum

/-- The sum of the popcounts of the 52 residual words of rows 1..6, columns 0..7, and of row
7, columns 0..3: the distance of a 60-word window from an AES-256 schedule. -/
def residual_sum_256 (map : Nat → Nat) : Nat :=
  ((List.range 6).map (fun r =>
    ((List.range 8).map (fun c => popcount (residual_256 map (r + 1) c))).sum)).sum
  + ((List.range 4).map (fun c => popcount (residual_256 map 7 c))).sum

/-- The bytes of a schedule in memory order: the four bytes of each word, `a0` first. -/
def schedule_bytes (ws : List FipsWord) : List Nat :=
  ws.flatMap (fun w => [w.a0, w.a1, w.a2, w.a3])

/-- The AES-128 key `2b7e151628aed2a6abf7158809cf4f3c` of FIPS-197, appendix A.1. -/
def fips_key_128 : List Nat :=
  [0x2b, 0x7e, 0x15, 0x16, 0x28, 0xae, 0xd2, 0xa6, 0xab, 0xf7, 0x15, 0x88, 0x09, 0xcf, 0x4f, 0x3c]

/-- The AES-256 key of FIPS-197, appendix A.3. -/
def fips_key_256 : List Nat :=
  [0x60, 0x3d, 0xeb, 0x10, 0x15, 0xca, 0x71, 0xbe, 0x2b, 0x73, 0xae, 0xf0, 0x85, 0x7d, 0x77, 0x81,
   0x1f, 0x35, 0x2c, 0x07, 0x3b, 0x61, 0x08, 0xd7, 0x2d, 0x98, 0x10, 0xa3, 0x09, 0x14, 0xdf, 0xf4]

/-- The all-zero AES-256 key. -/
def zero_key_256 : List Nat := List.replicate 32 0

/-! ## Row sums, scenario data and the column transforms -/

/-- The popcount sum of the four residuals of one row of the AES-128 check. -/
def row_sum_128 (map : Nat → Nat) (row : Nat) : Nat :=
  popcount (residual_128 map row 0) + popcount (residual_128 map row 1)
    + popcount (residual_128 map row 2) + popcount (residual_128 map row 3)

/-- The popcount sum of the rows `row .. row+n)` of the AES-128 check. -/
def rows_sum_128 (map : Nat → Nat) : Nat → Nat → Nat
  | 0, _ => 0
  | n + 1, row => row_sum_128 map row + rows_sum_128 map n (row + 1)

/-- The popcount sum of the residuals of one row of the AES-256 check (four in row 7). -/
def row_sum_256 (map : Nat → Nat) (row : Nat) : Nat :=
  if row = 7 then
    popcount (residual_256 map row 0) + popcount (residual_256 map row 1)
      + popcount (residual_256 map row 2) + popcount (residual_256 map row 3)
  else
    popcount (residual_256 map row 0) + popcount (residual_256 map row 1)
      + popcount (residual_256 map row 2) + popcount (residual_256 map row 3)
      + popcount (residual_256 map row 4) + popcount (residual_256 map row 5)
      + popcount (residual_256 map row 6) + popcount (residual_256 map row 7)

/-- The popcount sum of the rows `row .. row+n)` of the AES-256 check. -/
def rows_sum_256 (map : Nat → Nat) : Nat → Nat → Nat
  | 0, _ => 0
  | n + 1, row => row_sum_256 map row + rows_sum_256 map n (row + 1)

/-- The 176 bytes of the AES-128 schedule of `fips_key_128`. -/
def s4_schedule : List Nat := schedule_bytes (KeyExpansion fips_key_128 4 10)

/-- The 240 bytes of the AES-256 schedule of the all-zero key. -/
def s1_image : List Nat := schedule_bytes (KeyExpansion zero_key_256 8 14)

/-- The 240 bytes of the AES-256 schedule of `fips_key_256`. -/
def a3_schedule : List Nat := schedule_bytes (KeyExpansion fips_key_256 8 14)

/-- Multiplication in GF(2^8) as in FIPS-197, section 4.2.1: the sum over the set bits `j` of
the constant `c` of the `j`-fold double of `s`. -/
def gf_mul (c s : Nat) : Nat :=
  (List.range 8).foldl (fun acc j => if c.testBit j then acc ^^^ xtime^[j] s else acc) 0

/-- The transformation `InvMixColumns` of FIPS-197 (equation 5.10) on one column. -/
def InvMixColumn (w : FipsWord) : FipsWord :=
  ⟨gf_mul 0x0e w.a0 ^^^ gf_mul 0x0b w.a1 ^^^ gf_mul 0x0d w.a2 ^^^ gf_mul 0x09 w.a3,
   gf_mul 0x09 w.a0 ^^^ gf_mul 0x0e w.a1 ^^^ gf_mul 0x0b w.a2 ^^^ gf_mul 0x0d w.a3,
   gf_mul 0x0d w.a0 ^^^ gf_mul 0x09 w.a1 ^^^ gf_mul 0x0e w.a2 ^^^ gf_mul 0x0b w.a3,
   gf_mul 0x0b w.a0 ^^^ gf_mul 0x0d w.a1 ^^^ gf_mul 0x09 w.a2 ^^^ gf_mul 0x0e w.a3⟩

/-- The transformation `MixColumns` of FIPS-197 (equation 5.6) on one column. -/
def MixColumn (w : FipsWord) : FipsWord :=
  ⟨gf_mul 0x02 w.a0 ^^^ gf_mul 0x03 w.a1 ^^^ w.a2 ^^^ w.a3,
   w.a0 ^^^ gf_mul 0x02 w.a1 ^^^ gf_mul 0x03 w.a2 ^^^ w.a3,
   w.a0 ^^^ w.a1 ^^^ gf_mul 0x02 w.a2 ^^^ gf_mul 0x03 w.a3,
   gf_mul 0x03 w.a0 ^^^ w.a1 ^^^ w.a2 ^^^ gf_mul 0x02 w.a3⟩

/-- The four bytes of a 32-bit word, least significant first. -/
def word_bytes (w : Nat) : FipsWord :=
  ⟨w % 256, w / 256 % 256, w / 65536 % 256, w / 16777216 % 256⟩

/-- The transformation `InvMixColumns` on a word of the detector (byte `a0` least
significant). -/
def inv_mix_word (w : Nat) : Nat := le_word (InvMixColumn (word_bytes w))

/-- A schedule with `InvMixColumns` applied to every word of rounds 1..9 (word indices
4..39), as decryption-optimised implementations store it. -/
def inv_mix_rounds (S : List Nat) : List Nat :=
  (List.range S.length).map
    (fun j => if 4 ≤ j ∧ j ≤ 39 then inv_mix_word (S.getD j 0) else S.getD j 0)

/-- A schedule of 11 round keys with the round keys in the opposite order. -/
def reverse_round_keys (S : List Nat) : List Nat :=
  (List.range 44).map (fun k => S.getD (4 * (10 - k / 4) + k % 4) 0)

/-- The bytes of an array of 32-bit words in memory order, least significant byte first. -/
def words_bytes (ws : List Nat) : List Nat :=
  ws.flatMap (fun w => [w % 256, w / 256 % 256, w / 65536 % 256, w / 16777216 % 256])

/-- The histogram of a byte list packed into one number: the digit of weight `256 ^ b` counts
the occurrences of `b` (exact as long as the list has fewer than 256 elements). -/
def byte_hist (w : List Nat) : Nat := (w.map (fun x => 256 ^ x)).sum

/-- No digit of the packed histogram `h` for the byte values 0..255 exceeds 8. -/
def hist_accepts (h : Nat) : Bool :=
  (List.range 256).all (fun b => decide (h / 256 ^ b % 256 ≤ 8))


/-! ## Instrumented scan, ordering of the reports and the histogram at the decision -/

/-- The position of a report among the reports of one offset: 0 for the AES-256 call of
`print_key`, `tweaks + 1` for the AES-128 call made under the tweak mask `tweaks`. -/
def report_rank (r : KeyReport) : Nat := if r.num_bits = 256 then 0 else r.tweaks + 1

/-- Report `a` comes strictly before report `b`: at a smaller offset, or at the same offset
with a smaller rank (AES-256 first, then AES-128 by ascending tweak mask). -/
def emitted_before (a b : KeyReport) : Prop :=
  a.address < b.address ∨ (a.address = b.address ∧ report_rank a < report_rank b)

/-- The loop of `find_keys` as `scan_loop`, returning besides the calls of `print_key` the
arguments `i` of the calls `entropy(bmap, i)` in the order they are made. -/
def scan_loop_log (bmap : List Nat) (gThreshold : Int) :
    Nat → Nat → EntropyState → List KeyReport × List Nat
  | 0, _, _ => ([], [])
  | n + 1, i, st =>
    let r := entropy st bmap i
    let rest := scan_loop_log bmap gThreshold n (i + 1) r.2
    ((if r.1 then [] else scan_offset bmap gThreshold i) ++ rest.1, i :: rest.2)

/-- Function `find_keys(bmap, last)` with the log of the offsets handed to `entropy`. -/
def find_keys_log (bmap : List Nat) (last : Nat) (gThreshold : Int) : List KeyReport × List Nat :=
  scan_loop_log bmap gThreshold last 0 entropy_start

/-- The tail of `main` with the log of the offsets handed to `entropy`. -/
def aeskeyfind_log (image : List Nat) (gThreshold : Int) : Option (List KeyReport × List Nat) :=
  if image.length < 240 then none
  else some (find_keys_log image (image.length - 240) gThreshold)

/-- The static state of `entropy` after the calls `entropy(bmap, 0)`, ..., `entropy(bmap, i-1)`
that `find_keys` makes before it reaches offset `i`. -/
def entropy_after (bmap : List Nat) : Nat → EntropyState
  | 0 => entropy_start
  | i + 1 => (entropy (entropy_after bmap i) bmap i).2

/-- The histogram `byte_freq` at the moment `entropy` runs its test loop: after the
initialisation of the first call, before the two updates that slide the window. -/
def decision_freq (st : EntropyState) (bmap : List Nat) : Nat → Int :=
  if st.new_call then fill_freq bmap 176 0 st.byte_freq else st.byte_freq

/-- The all-zero AES-128 key. -/
def zero_key_128 : List Nat := List.replicate 16 0

/-- The 176 bytes of the AES-128 schedule of the all-zero key. -/
def zero_schedule_128 : List Nat := schedule_bytes (KeyExpansion zero_key_128 4 10)

/-- A division of `size_t` values; `none` stands for a division by zero. -/
def div_size_t (a b : Nat) : Option Nat := if b = 0 then none else some (a / b)

/-- The value `pct` that `find_keys` computes at offset `i` when progress is shown:
`(increment > 0) ? i / increment : i * 100 / last` with `increment = last / 100`, in
64-bit `size_t` arithmetic. -/
def progress_pct (last i : Nat) : Option Nat :=
  let increment := last / 100
  if increment > 0 then div_size_t i increment else div_size_t (i * 100 % 2 ^ 64) last


/-! ## The words read by `print_key` -/

/-- The column loop `for (column = 0; column < num_words; column++)` of the block
`CONSTRAINTS ON ROWS` of `print_key` for one `row`, with its
`if (num_bits == 256 && row == 7 && column >= 4) break;`: the indices `k` of the words
`map[k]` it reads; `n` columns remain, `column` is the current one. -/
def constraint_columns (num_bits num_words row : Nat) : Nat → Nat → List Nat
  | 0, _ => []
  | n + 1, column =>
    if num_bits = 256 ∧ row = 7 ∧ column ≥ 4 then []
    else
      (if column = 0 then
        [num_words * row - 1, num_words * (row - 1), num_words * row]
      else if column = 4 then
        [num_words * row + 3, num_words * (row - 1) + 4, num_words * row + 4]
      else
        [num_words * row + column - 1, num_words * (row - 1) + column, num_words * row + column])
      ++ constraint_columns num_bits num_words row n (column + 1)

/-- The row loop `for (row = 1; row < num_roundkeys; row++)` of the block
`CONSTRAINTS ON ROWS`: `n` rows remain, `row` is the current one. -/
def constraint_rows (num_bits num_words : Nat) : Nat → Nat → List Nat
  | 0, _ => []
  | n + 1, row =>
    constraint_columns num_bits num_words row num_words 0
      ++ constraint_rows num_bits num_words n (row + 1)

/-- The loops of the block `EXTENDED KEY` of `print_key`: the indices `4*row+column` for
`column < 4`; `n` rows remain, `row` is the current one. -/
def extended_rows : Nat → Nat → List Nat
  | 0, _ => []
  | n + 1, row => [4 * row, 4 * row + 1, 4 * row + 2, 4 * row + 3] ++ extended_rows n (row + 1)

/-- Function `print_key(map, num_bits, address)`: the indices `k` of the words `map[k]` it
reads, in program order; `gVerbose` is the global flag set by the option `-v`. -/
def print_key_reads (gVerbose : Bool) (num_bits : Nat) : List Nat :=
  let num_words := num_bits / 32
  List.range num_words ++
    (if gVerbose then
      let num_roundkeys := if num_bits = 128 then 11 else if num_bits = 256 then 15 else 0
      extended_rows num_roundkeys 0 ++ constraint_rows num_bits num_words (num_roundkeys - 1) 1
    else [])

/-- The number of words of the table a report points to: the 15 rows of the image window
for a 256-bit report, the 11 rows of `newmap` for a 128-bit one. -/
def table_words (num_bits : Nat) : Nat := if num_bits = 256 then 60 else 44


/-! ## The scanner with every array access checked

The functions below repeat the scanner with each read of the image `bmap` and each read or
write of the scratch array `newmap[4*11]` going through an access that yields `none` when the
index is outside the array. -/

/-- The read `bmap[j]`; `none` when `j` is not an index of the image. -/
def byte_at_chk (bmap : List Nat) (j : Nat) : Option Nat := bmap[j]?

/-- The read `map[k]` for `map = (uint32_t*)&(bmap[i])`: the four byte reads of `word_at`. -/
def word_at_chk (bmap : List Nat) (i k : Nat) : Option Nat :=
  (byte_at_chk bmap (i + 4 * k)).bind fun b0 =>
  (byte_at_chk bmap (i + 4 * k + 1)).bind fun b1 =>
  (byte_at_chk bmap (i + 4 * k + 2)).bind fun b2 =>
  (byte_at_chk bmap (i + 4 * k + 3)).bind fun b3 =>
  some (b0 + 256 * b1 + 65536 * b2 + 16777216 * b3)

/-- The read `newmap[k]` of the scratch array; `none` when `k` is not one of its indices. -/
def scratch_at_chk (newmap : List Nat) (k : Nat) : Option Nat := newmap[k]?

/-- The write `newmap[k] = v`; `none` when `k` is not an index of the scratch array. -/
def scratch_set_chk (newmap : List Nat) (k v : Nat) : Option (List Nat) :=
  if k < newmap.length then some (newmap.set k v) else none

/-- The residual of `residual_128` with checked reads of `map`. -/
def residual_128_chk (map : Nat → Option Nat) (row column : Nat) : Option Nat :=
  if column = 0 then
    (map (4 * row - 1)).bind fun a => (map (4 * (row - 1))).bind fun b =>
      (map (4 * row)).bind fun c => some (key_core a row ^^^ b ^^^ c)
  else
    (map (4 * row + column - 1)).bind fun a => (map (4 * (row - 1) + column)).bind fun b =>
      (map (4 * row + column)).bind fun c => some ((a ^^^ b) ^^^ c)

/-- The column loop of `columns_128` with checked reads. -/
def columns_128_chk (map : Nat → Option Nat) (row : Nat) : Nat → Nat → Int → Option Int
  | 0, _, xc => some xc
  | n + 1, column, xc =>
    (residual_128_chk map row column).bind fun r =>
      columns_128_chk map row n (column + 1) (xc + (popcount r : Int))

/-- The row loop of `rows_128` with checked reads. -/
def rows_128_chk (map : Nat → Option Nat) (gThreshold : Int) : Nat → Nat → Int → Option Int
  | 0, _, xc => some xc
  | n + 1, row, xc =>
    (columns_128_chk map row 4 0 xc).bind fun xc1 =>
      if xc1 > gThreshold then some xc1 else rows_128_chk map gThreshold n (row + 1) xc1

/-- The value of `xor_count_128` with checked reads. -/
def xor_count_128_chk (map : Nat → Option Nat) (gThreshold : Int) : Option Int :=
  rows_128_chk map gThreshold 10 1 0

/-- The residual of `residual_256` with checked reads of `map`. -/
def residual_256_chk (map : Nat → Option Nat) (row column : Nat) : Option Nat :=
  if column = 0 then
    (map (8 * row - 1)).bind fun a => (map (8 * (row - 1))).bind fun b =>
      (map (8 * row)).bind fun c => some (key_core a row ^^^ b ^^^ c)
  else if column = 4 then
    (map (8 * row + 3)).bind fun a => (map (8 * (row - 1) + 4)).bind fun b =>
      (map (8 * row + 4)).bind fun c => some (sbox_bytes a ^^^ b ^^^ c)
  else
    (map (8 * row + column - 1)).bind fun a => (map (8 * (row - 1) + column)).bind fun b =>
      (map (8 * row + column)).bind fun c => some (a ^^^ b ^^^ c)

/-- The column loop of `columns_256` with checked reads. -/
def columns_256_chk (map : Nat → Option Nat) (row : Nat) : Nat → Nat → Int → Option Int
  | 0, _, xc => some xc
  | n + 1, column, xc =>
    if row = 7 ∧ column = 4 then some xc
    else
      (residual_256_chk map row column).bind fun r =>
        columns_256_chk map row n (column + 1) (xc + (popcount r : Int))

/-- The row loop of `rows_256` with checked reads. -/
def rows_256_chk (map : Nat → Option Nat) (gThreshold : Int) : Nat → Nat → Int → Option Int
  | 0, _, xc => some xc
  | n + 1, row, xc =>
    (columns_256_chk map row 8 0 xc).bind fun xc1 =>
      if xc1 > gThreshold then some xc1 else rows_256_chk map gThreshold n (row + 1) xc1

/-- The value of `xor_count_256` with checked reads. -/
def xor_count_256_chk (map : Nat → Option Nat) (gThreshold : Int) : Option Int :=
  rows_256_chk map gThreshold 7 1 0

/-- The loop of `unconvert_loop` with the read `*k` and the write `*k++ =` checked against
the scratch array. -/
def unconvert_loop_chk : Nat → Nat → List Nat → Option (List Nat)
  | 0, _, k => some k
  | n + 1, p, k =>
    (scratch_at_chk k p).bind fun w =>
      (scratch_set_chk k p (unconvert_word w)).bind fun k1 => unconvert_loop_chk n (p + 1) k1

/-- Function `unconvert_key(k, rounds)` with checked accesses. -/
def unconvert_key_chk (k : List Nat) (rounds : Nat) : Option (List Nat) :=
  unconvert_loop_chk (rounds * 4 - 4) 4 k

/-- The copy of `copy_row` with the four word reads of the image and the four word writes of
the scratch array checked. -/
def copy_row_chk (bmap : List Nat) (i : Nat) (dst : List Nat) (drow srow : Nat) :
    Option (List Nat) :=
  (word_at_chk bmap i (4 * srow)).bind fun w0 =>
  (scratch_set_chk dst (4 * drow) w0).bind fun d0 =>
  (word_at_chk bmap i (4 * srow + 1)).bind fun w1 =>
  (scratch_set_chk d0 (4 * drow + 1) w1).bind fun d1 =>
  (word_at_chk bmap i (4 * srow + 2)).bind fun w2 =>
  (scratch_set_chk d1 (4 * drow + 2) w2).bind fun d2 =>
  (word_at_chk bmap i (4 * srow + 3)).bind fun w3 =>
  scratch_set_chk d2 (4 * drow + 3) w3

/-- The loop of `reverse_rows` with checked copies. -/
def reverse_rows_chk (bmap : List Nat) (i : Nat) : Nat → Nat → List Nat → Option (List Nat)
  | 0, _, newmap => some newmap
  | n + 1, row, newmap =>
    (copy_row_chk bmap i newmap row (10 - row)).bind fun m =>
      reverse_rows_chk bmap i n (row + 1) m


/-- The scratch array of `tweak_map` built with checked accesses; the plain copy
`memcpy(newmap, map, 4*11*sizeof(uint32_t))` reads the words 0..43 of the window and fills
the 44 words of `newmap` with them. -/
def tweak_map_chk (bmap : List Nat) (i tweaks : Nat) : Option (List Nat) :=
  (if tweaks &&& TWEAK_REVERSE_ORDER ≠ 0 then
      reverse_rows_chk bmap i 11 0 (List.replicate 44 0)
    else
      (List.range 44).mapM (word_at_chk bmap i)).bind fun newmap =>
    if tweaks &&& TWEAK_INVMIXCOLUMN ≠ 0 then unconvert_key_chk newmap 10 else some newmap

/-- The loop of `fill_freq` with checked reads of the image. -/
def fill_freq_chk (bmap : List Nat) : Nat → Nat → (Nat → Int) → Option (Nat → Int)
  | 0, _, byte_freq => some byte_freq
  | n + 1, j, byte_freq =>
    (byte_at_chk bmap j).bind fun b => fill_freq_chk bmap n (j + 1) (bump byte_freq b 1)

/-- Function `entropy(bmap, i)` with checked reads of the image: the reads `bmap[0 .. 176)`
of the first call, then `bmap[i]` and `bmap[i+176]`. -/
def entropy_chk (st : EntropyState) (bmap : List Nat) (i : Nat) : Option (Bool × EntropyState) :=
  (if st.new_call then fill_freq_chk bmap 176 0 st.byte_freq else some st.byte_freq).bind
    fun byte_freq =>
      (byte_at_chk bmap i).bind fun b1 =>
        (byte_at_chk bmap (i + 176)).bind fun b2 =>
          some (freq_test byte_freq, ⟨false, bump (bump byte_freq b1 (-1)) b2 1⟩)

/-- The AES-256 check of `check_256` with checked reads; the report records the table the
pointer `map` refers to, which the check itself does not read again. -/
def check_256_chk (bmap : List Nat) (gThreshold : Int) (i : Nat) : Option (List KeyReport) :=
  (xor_count_256_chk (word_at_chk bmap i) gThreshold).bind fun xc =>
    some (if xc ≤ gThreshold then [⟨(List.range 60).map (word_at bmap i), 256, i, 0⟩] else [])

/-- The body of the tweak loop of `check_128` with checked accesses. -/
def check_128_chk (bmap : List Nat) (gThreshold : Int) (i tweaks : Nat) :
    Option (List KeyReport) :=
  (tweak_map_chk bmap i tweaks).bind fun map =>
    (xor_count_128_chk (scratch_at_chk map) gThreshold).bind fun xc =>
      some (if xc < gThreshold then [⟨map, 128, i, tweaks⟩] else [])

/-- The loop of `tweak_loop` with checked accesses. -/
def tweak_loop_chk (bmap : List Nat) (gThreshold : Int) (i : Nat) :
    Nat → Nat → Option (List KeyReport)
  | 0, _ => some []
  | n + 1, tweaks =>
    (check_128_chk bmap gThreshold i tweaks).bind fun a =>
      (tweak_loop_chk bmap gThreshold i n (tweaks + 1)).bind fun b => some (a ++ b)

/-- The body of `scan_offset` with checked accesses. -/
def scan_offset_chk (bmap : List Nat) (gThreshold : Int) (i : Nat) : Option (List KeyReport) :=
  (check_256_chk bmap gThreshold i).bind fun a =>
    (tweak_loop_chk bmap gThreshold i MAX_TWEAKS 0).bind fun b => some (a ++ b)

/-- The loop of `scan_loop` with checked accesses. -/
def scan_loop_chk (bmap : List Nat) (gThreshold : Int) :
    Nat → Nat → EntropyState → Option (List KeyReport)
  | 0, _, _ => some []
  | n + 1, i, st =>
    (entropy_chk st bmap i).bind fun r =>
      (if r.1 then some [] else scan_offset_chk bmap gThreshold i).bind fun a =>
        (scan_loop_chk bmap gThreshold n (i + 1) r.2).bind fun b => some (a ++ b)

/-- Function `find_keys(bmap, last)` with checked accesses: `none` as soon as one index is
outside its array. -/
def find_keys_chk (bmap : List Nat) (last : Nat) (gThreshold : Int) : Option (List KeyReport) :=
  scan_loop_chk bmap gThreshold last 0 entropy_start

end AesKeyFind

namespace AesKeyFind

/-! ## Lists -/

theorem list_ext_getD (l1 l2 : List Nat) (hl : l1.length = l2.length)
    (h : ∀ j, j < l1.length → l1.getD j 0 = l2.getD j 0) : l1 = l2 := by
  apply List.ext_getElem hl
  intro j h1 h2
  have := h j h1
  rwa [List.getD_eq_getElem _ _ h1, List.getD_eq_getElem _ _ h2] at this

theorem as_map_range (f : Nat → Nat) (n k : Nat) (hk : k < n) :
    as_map ((List.range n).map f) k = f k := by
  simp [as_map, List.getD_eq_getElem?_getD, List.getElem?_map, List.getElem?_range hk]

theorem getD_set (k : List Nat) (p j a : Nat) :
    (k.set p a).getD j 0 = if p = j ∧ j < k.length then a else k.getD j 0 := by
  simp only [List.getD_eq_getElem?_getD, List.getElem?_set]
  by_cases h : p = j
  · subst h
    by_cases h2 : p < k.length
    · simp [h2]
    · simp [h2, List.getElem?_eq_none (Nat.le_of_not_lt h2)]
  · simp [h]

theorem getD_cons4 (a b c d : Nat) (l : List Nat) (n : Nat) :
    (a :: b :: c :: d :: l).getD (n + 4) 0 = l.getD n 0 := rfl

/-! ## Bit-level facts about packed words -/

theorem xor_split (k a b c d : Nat) (ha : a < 2 ^ k) (hb : b < 2 ^ k) :
    (2 ^ k * c + a) ^^^ (2 ^ k * d + b) = 2 ^ k * (c ^^^ d) + (a ^^^ b) := by
  apply Nat.eq_of_testBit_eq
  intro j
  rw [Nat.testBit_xor, Nat.testBit_mul_pow_two_add _ ha, Nat.testBit_mul_pow_two_add _ hb,
    Nat.testBit_mul_pow_two_add _ (Nat.xor_lt_two_pow ha hb)]
  by_cases h : j < k <;> simp [h]

theorem le_word_xor (u v : FipsWord) (hu : u.ok) (hv : v.ok) :
    le_word (xorWord u v) = le_word u ^^^ le_word v := by
  obtain ⟨u0, u1, u2, u3⟩ := u
  obtain ⟨v0, v1, v2, v3⟩ := v
  obtain ⟨h0, h1, h2, h3⟩ := hu
  obtain ⟨g0, g1, g2, g3⟩ := hv
  simp only [le_word, xorWord] at *
  have e : ∀ a b c d : Nat, a + 256 * b + 65536 * c + 16777216 * d
      = 2 ^ 8 * (2 ^ 8 * (2 ^ 8 * d + c) + b) + a := by intros; omega
  rw [e, e, e, xor_split 8 _ _ _ _ h0 g0, xor_split 8 _ _ _ _ h1 g1,
    xor_split 8 _ _ _ _ h2 g2]

theorem and_ff (x : Nat) : x &&& 0xff = x % 256 := Nat.and_pow_two_sub_one_eq_mod x 8

theorem or_shl (a b k : Nat) (hb : b < 2 ^ k) : b ||| (a <<< k) = 2 ^ k * a + b := by
  rw [Nat.or_comm, Nat.shiftLeft_eq, Nat.mul_comm a, Nat.mul_add_lt_is_or hb]

theorem get_byte_le_word (w : FipsWord) (hw : w.ok) :
    get_byte (le_word w) 0 = w.a0 ∧ get_byte (le_word w) 1 = w.a1 ∧
    get_byte (le_word w) 2 = w.a2 ∧ get_byte (le_word w) 3 = w.a3 := by
  obtain ⟨h0, h1, h2, h3⟩ := hw
  simp only [get_byte, and_ff, Nat.shiftRight_eq_div_pow, le_word]
  norm_num
  omega

theorem sbox_lt (x : Nat) : sbox x < 256 := by
  have h : ∀ v ∈ sbox_table, v < 256 := by decide!
  unfold sbox
  rw [List.getD_eq_getElem?_getD]
  cases hx : sbox_table[x]? with
  | none => simp
  | some v => exact h v (List.getElem?_mem hx)

theorem xtime_lt (x : Nat) : xtime x < 256 := Nat.mod_lt _ (by decide)

theorem rcon_lt (r : Nat) : rcon r < 256 := by
  unfold rcon
  cases r - 1 with
  | zero => simp
  | succ n => rw [Function.iterate_succ_apply']; exact xtime_lt _

theorem sbox_bytes_le_word (w : FipsWord) (hw : w.ok) :
    sbox_bytes (le_word w) = le_word (SubWord w) := by
  obtain ⟨e0, e1, e2, e3⟩ := get_byte_le_word w hw
  have s0 := sbox_lt w.a0
  have s1 := sbox_lt w.a1
  have s2 := sbox_lt w.a2
  have s3 := sbox_lt w.a3
  unfold sbox_bytes
  rw [e0, e1, e2, e3, or_shl _ _ 8 (by omega), or_shl _ _ 16 (by omega),
    or_shl _ _ 24 (by omega)]
  simp only [le_word, SubWord]
  omega

theorem rot_bytes_le_word (w : FipsWord) (hw : w.ok) :
    rot_bytes (le_word w) = le_word (RotWord w) := by
  obtain ⟨h0, h1, h2, h3⟩ := hw
  have hdiv : le_word w >>> 8 = w.a1 + 256 * w.a2 + 65536 * w.a3 := by
    simp only [Nat.shiftRight_eq_div_pow, le_word]; omega
  unfold rot_bytes
  rw [or_shl _ _ 24 (by rw [hdiv]; omega), hdiv]
  simp only [le_word, RotWord]
  have e : 2 ^ 24 * (w.a0 + 256 * w.a1 + 65536 * w.a2 + 16777216 * w.a3)
      + (w.a1 + 256 * w.a2 + 65536 * w.a3)
      = (w.a1 + 256 * w.a2 + 65536 * w.a3 + 16777216 * w.a0)
        + 2 ^ 32 * (w.a1 + 256 * w.a2 + 65536 * w.a3) := by omega
  rw [e, Nat.add_mul_mod_self_left]
  exact Nat.mod_eq_of_lt (by omega)

theorem SubWord_ok (w : FipsWord) : (SubWord w).ok :=
  ⟨sbox_lt _, sbox_lt _, sbox_lt _, sbox_lt _⟩

theorem RotWord_ok (w : FipsWord) (hw : w.ok) : (RotWord w).ok :=
  ⟨hw.2.1, hw.2.2.1, hw.2.2.2, hw.1⟩

theorem Rcon_ok (i : Nat) : (Rcon i).ok :=
  ⟨rcon_lt i, by simp [Rcon], by simp [Rcon], by simp [Rcon]⟩

theorem xorWord_ok (u v : FipsWord) (hu : u.ok) (hv : v.ok) : (xorWord u v).ok :=
  ⟨Nat.xor_lt_two_pow (n := 8) hu.1 hv.1, Nat.xor_lt_two_pow (n := 8) hu.2.1 hv.2.1,
    Nat.xor_lt_two_pow (n := 8) hu.2.2.1 hv.2.2.1, Nat.xor_lt_two_pow (n := 8) hu.2.2.2 hv.2.2.2⟩

theorem le_word_Rcon (i : Nat) : le_word (Rcon i) = rcon i := by
  simp [le_word, Rcon, rcon]

theorem key_core_le_word (w : FipsWord) (hw : w.ok) (round : Nat) :
    key_core (le_word w) round = le_word (xorWord (SubWord (RotWord w)) (Rcon round)) := by
  unfold key_core
  rw [rot_bytes_le_word w hw, sbox_bytes_le_word _ (RotWord_ok w hw),
    le_word_xor _ _ (SubWord_ok _) (Rcon_ok _), le_word_Rcon]

theorem le_word_lt (u : FipsWord) (hu : u.ok) : le_word u < 2 ^ 32 := by
  obtain ⟨h0, h1, h2, h3⟩ := hu
  simp only [le_word]
  omega

theorem le_word_bytes (w : Nat) (hw : w < 2 ^ 32) : le_word (word_bytes w) = w := by
  simp only [le_word, word_bytes]
  omega

theorem word_bytes_ok (w : Nat) : (word_bytes w).ok := by
  simp only [FipsWord.ok, word_bytes]
  omega

theorem or_flip (x3 x2 x1 x0 : Nat) : x3 ||| x2 ||| x1 ||| x0 = x0 ||| x1 ||| x2 ||| x3 := by
  rw [Nat.or_comm (x3 ||| x2 ||| x1) x0, Nat.or_comm (x3 ||| x2) x1, Nat.or_comm x3 x2,
    ← Nat.or_assoc, ← Nat.or_assoc]

theorem pack_or (a0 a1 a2 a3 : Nat) (h0 : a0 < 256) (h1 : a1 < 256) (h2 : a2 < 256) :
    (a3 <<< 24) ||| (a2 <<< 16) ||| (a1 <<< 8) ||| a0
      = a0 + 256 * a1 + 65536 * a2 + 16777216 * a3 := by
  rw [or_flip, or_shl _ _ 8 (by omega), or_shl _ _ 16 (by omega), or_shl _ _ 24 (by omega)]
  omega

/-! ## The key expansion as a recurrence -/

theorem fips_expand_length (Nk : Nat) (n : Nat) (w : List FipsWord) :
    (fips_expand Nk n w).length = w.length + n := by
  induction n generalizing w with
  | zero => rfl
  | succ n ih => rw [fips_expand, ih]; simp; omega

theorem fips_expand_old (Nk : Nat) (n : Nat) (w : List FipsWord) (i : Nat) (d : FipsWord)
    (hi : i < w.length) : (fips_expand Nk n w).getD i d = w.getD i d := by
  induction n generalizing w with
  | zero => rfl
  | succ n ih =>
    rw [fips_expand, ih _ (by simp; omega), List.getD_append _ _ _ _ hi]

theorem fips_expand_new (Nk : Nat) (hNk : 1 ≤ Nk) (n : Nat) (w : List FipsWord) (i : Nat)
    (hw : Nk ≤ w.length) (h1 : w.length ≤ i) (h2 : i < w.length + n) :
    (fips_expand Nk n w).getD i ⟨0, 0, 0, 0⟩
      = fips_word Nk i ((fips_expand Nk n w).getD (i - 1) ⟨0, 0, 0, 0⟩)
          ((fips_expand Nk n w).getD (i - Nk) ⟨0, 0, 0, 0⟩) := by
  induction n generalizing w with
  | zero => omega
  | succ n ih =>
    rw [fips_expand]
    by_cases hi : i = w.length
    · subst hi
      rw [fips_expand_old _ _ _ _ _ (by simp), fips_expand_old _ _ _ _ _ (by simp; omega),
        fips_expand_old _ _ _ _ _ (by simp; omega),
        List.getD_append_right _ _ _ _ (Nat.le_refl _),
        List.getD_append _ _ _ _ (by omega), List.getD_append _ _ _ _ (by omega)]
      simp
    · exact ih _ (by simp; omega) (by simp; omega) (by simp; omega)

theorem fips_word_ok (Nk i : Nat) (prev back : FipsWord) (hp : prev.ok) (hb : back.ok) :
    (fips_word Nk i prev back).ok := by
  unfold fips_word
  apply xorWord_ok _ _ hb
  split
  · exact xorWord_ok _ _ (SubWord_ok _) (Rcon_ok _)
  · split
    · exact SubWord_ok _
    · exact hp

theorem zero_word_ok : FipsWord.ok ⟨0, 0, 0, 0⟩ := by simp [FipsWord.ok]

theorem getD_ok (w : List FipsWord) (hw : ∀ u ∈ w, u.ok) (i : Nat) :
    (w.getD i ⟨0, 0, 0, 0⟩).ok := by
  rw [List.getD_eq_getElem?_getD]
  cases hx : w[i]? with
  | none => exact zero_word_ok
  | some v => exact hw v (List.getElem?_mem hx)

theorem fips_expand_ok (Nk : Nat) (n : Nat) (w : List FipsWord) (hw : ∀ u ∈ w, u.ok) :
    ∀ u ∈ fips_expand Nk n w, u.ok := by
  induction n generalizing w with
  | zero => exact hw
  | succ n ih =>
    rw [fips_expand]
    apply ih
    intro u hu
    rcases List.mem_append.1 hu with h | h
    · exact hw u h
    · rw [List.mem_singleton.1 h]
      exact fips_word_ok _ _ _ _ (getD_ok w hw _) (getD_ok w hw _)

theorem key_words_ok (key : List Nat) (hk : ∀ b ∈ key, b < 256) (Nk : Nat) :
    ∀ u ∈ key_words key Nk, u.ok := by
  have hb : ∀ j, key.getD j 0 < 256 := by
    intro j
    rw [List.getD_eq_getElem?_getD]
    cases hx : key[j]? with
    | none => simp
    | some v => exact hk v (List.getElem?_mem hx)
  intro u hu
  simp only [key_words, List.mem_map] at hu
  obtain ⟨j, -, rfl⟩ := hu
  exact ⟨hb _, hb _, hb _, hb _⟩

theorem KeyExpansion_ok (key : List Nat) (hk : ∀ b ∈ key, b < 256) (Nk Nr : Nat) (i : Nat) :
    ((KeyExpansion key Nk Nr).getD i ⟨0, 0, 0, 0⟩).ok :=
  getD_ok _ (fips_expand_ok _ _ _ (key_words_ok key hk Nk)) i

theorem KeyExpansion_rec (key : List Nat) (Nk Nr : Nat) (hNk : 1 ≤ Nk) (i : Nat)
    (h1 : Nk ≤ i) (h2 : i < 4 * (Nr + 1)) :
    (KeyExpansion key Nk Nr).getD i ⟨0, 0, 0, 0⟩
      = fips_word Nk i ((KeyExpansion key Nk Nr).getD (i - 1) ⟨0, 0, 0, 0⟩)
          ((KeyExpansion key Nk Nr).getD (i - Nk) ⟨0, 0, 0, 0⟩) := by
  have hl : (key_words key Nk).length = Nk := by simp [key_words]
  exact fips_expand_new Nk hNk _ _ i (by omega) (by omega) (by omega)

theorem KeyExpansion_length (key : List Nat) (Nk Nr : Nat) (h : Nk ≤ 4 * (Nr + 1)) :
    (KeyExpansion key Nk Nr).length = 4 * (Nr + 1) := by
  unfold KeyExpansion
  rw [fips_expand_length]
  simp [key_words]
  omega

theorem le_word_fips_word (Nk i : Nat) (prev back : FipsWord) (hp : prev.ok) (hb : back.ok) :
    le_word (fips_word Nk i prev back)
      = le_word back ^^^
          (if i % Nk = 0 then key_core (le_word prev) (i / Nk)
           else if Nk > 6 ∧ i % Nk = 4 then sbox_bytes (le_word prev)
           else le_word prev) := by
  unfold fips_word
  split
  · rw [le_word_xor _ _ hb (xorWord_ok _ _ (SubWord_ok _) (Rcon_ok _)), key_core_le_word _ hp]
  · split
    · rw [le_word_xor _ _ hb (SubWord_ok _), sbox_bytes_le_word _ hp]
    · rw [le_word_xor _ _ hb hp]

theorem as_map_words (S : List FipsWord) (k : Nat) :
    as_map (S.map le_word) k = le_word (S.getD k ⟨0, 0, 0, 0⟩) := by
  simp only [as_map, List.getD_eq_getElem?_getD, List.getElem?_map]
  cases S[k]? <;> simp [le_word]

theorem aes128_words_length (key : List Nat) : (aes128_words key).length = 44 := by
  simp [aes128_words, KeyExpansion_length key 4 10 (by omega)]

theorem aes256_words_length (key : List Nat) : (aes256_words key).length = 60 := by
  simp [aes256_words, KeyExpansion_length key 8 14 (by omega)]

theorem aes128_words_lt (key : List Nat) (hk : ∀ b ∈ key, b < 256) (j : Nat) :
    (aes128_words key).getD j 0 < 2 ^ 32 := by
  have := as_map_words (KeyExpansion key 4 10) j
  unfold as_map at this
  unfold aes128_words
  rw [this]
  exact le_word_lt _ (KeyExpansion_ok key hk 4 10 j)

/-! ## The canonical schedules satisfy the relations the detector tests -/

theorem aes128_rel (key : List Nat) (hk : ∀ b ∈ key, b < 256) (i : Nat) (h1 : 4 ≤ i)
    (h2 : i < 44) :
    as_map (aes128_words key) i
      = as_map (aes128_words key) (i - 4) ^^^
          (if i % 4 = 0 then key_core (as_map (aes128_words key) (i - 1)) (i / 4)
           else as_map (aes128_words key) (i - 1)) := by
  unfold aes128_words
  rw [as_map_words, as_map_words, as_map_words, KeyExpansion_rec key 4 10 (by omega) i h1 h2,
    le_word_fips_word _ _ _ _ (KeyExpansion_ok key hk _ _ _) (KeyExpansion_ok key hk _ _ _)]
  simp

theorem aes256_rel (key : List Nat) (hk : ∀ b ∈ key, b < 256) (i : Nat) (h1 : 8 ≤ i)
    (h2 : i < 60) :
    as_map (aes256_words key) i
      = as_map (aes256_words key) (i - 8) ^^^
          (if i % 8 = 0 then key_core (as_map (aes256_words key) (i - 1)) (i / 8)
           else if i % 8 = 4 then sbox_bytes (as_map (aes256_words key) (i - 1))
           else as_map (aes256_words key) (i - 1)) := by
  unfold aes256_words
  rw [as_map_words, as_map_words, as_map_words, KeyExpansion_rec key 8 14 (by omega) i h1 h2,
    le_word_fips_word _ _ _ _ (KeyExpansion_ok key hk _ _ _) (KeyExpansion_ok key hk _ _ _)]
  simp

theorem xor3_cancel (t a : Nat) : t ^^^ a ^^^ (a ^^^ t) = 0 := by
  rw [Nat.xor_comm a t, Nat.xor_self]

theorem popcount_zero : popcount 0 = 0 := by decide

/-- Whenever the relations of the AES-128 expansion hold in `map`, every residual is zero. -/
theorem residual_128_of_rel (map : Nat → Nat)
    (hrel : ∀ i, 4 ≤ i → i < 44 →
      map i = map (i - 4) ^^^ (if i % 4 = 0 then key_core (map (i - 1)) (i / 4) else map (i - 1)))
    (row column : Nat) (hr1 : 1 ≤ row) (hr2 : row ≤ 10) (hc : column ≤ 3) :
    residual_128 map row column = 0 := by
  unfold residual_128
  by_cases h0 : column = 0
  · subst h0
    rw [if_pos rfl, hrel (4 * row) (by omega) (by omega)]
    have e1 : 4 * row % 4 = 0 := by omega
    have e2 : 4 * row / 4 = row := by omega
    have e3 : 4 * row - 4 = 4 * (row - 1) := by omega
    rw [if_pos e1, e2, e3]
    exact xor3_cancel _ _
  · rw [if_neg h0, hrel (4 * row + column) (by omega) (by omega)]
    have e1 : ¬ (4 * row + column) % 4 = 0 := by omega
    have e3 : 4 * row + column - 4 = 4 * (row - 1) + column := by omega
    rw [if_neg e1, e3]
    exact xor3_cancel _ _

theorem columns_128_zero (map : Nat → Nat) (row : Nat)
    (h : ∀ column, column ≤ 3 → residual_128 map row column = 0) (xc : Int) :
    columns_128 map row 4 0 xc = xc := by
  simp [columns_128, h 0 (by omega), h 1 (by omega), h 2 (by omega), h 3 (by omega),
    popcount_zero]

theorem rows_128_zero (map : Nat → Nat) (t : Int) (n row : Nat)
    (h : ∀ r column, row ≤ r → r < row + n → column ≤ 3 → residual_128 map r column = 0) :
    rows_128 map t n row 0 = 0 := by
  induction n generalizing row with
  | zero => rfl
  | succ n ih =>
    rw [rows_128, columns_128_zero map row (fun c hc => h row c (by omega) (by omega) hc)]
    split
    · rfl
    · exact ih (row + 1) (fun r c h1 h2 hc => h r c (by omega) (by omega) hc)

/-- Whenever the relations of the AES-256 expansion hold in `map`, every residual is zero. -/
theorem residual_256_of_rel (map : Nat → Nat)
    (hrel : ∀ i, 8 ≤ i → i < 60 →
      map i = map (i - 8) ^^^
        (if i % 8 = 0 then key_core (map (i - 1)) (i / 8)
         else if i % 8 = 4 then sbox_bytes (map (i - 1)) else map (i - 1)))
    (row column : Nat) (hr1 : 1 ≤ row) (hr2 : row ≤ 7) (hc : column ≤ 7)
    (h7 : row = 7 → column ≤ 3) :
    residual_256 map row column = 0 := by
  unfold residual_256
  by_cases h0 : column = 0
  · subst h0
    rw [if_pos rfl, hrel (8 * row) (by omega) (by omega)]
    have e1 : 8 * row % 8 = 0 := by omega
    have e2 : 8 * row / 8 = row := by omega
    have e3 : 8 * row - 8 = 8 * (row - 1) := by omega
    rw [if_pos e1, e2, e3]
    exact xor3_cancel _ _
  · rw [if_neg h0]
    by_cases h4 : column = 4
    · subst h4
      rw [if_pos rfl, hrel (8 * row + 4) (by omega) (by omega)]
      have e1 : ¬ (8 * row + 4) % 8 = 0 := by omega
      have e2 : (8 * row + 4) % 8 = 4 := by omega
      have e3 : 8 * row + 4 - 8 = 8 * (row - 1) + 4 := by omega
      have e4 : 8 * row + 4 - 1 = 8 * row + 3 := by omega
      rw [if_neg e1, if_pos e2, e3, e4]
      exact xor3_cancel _ _
    · rw [if_neg h4, hrel (8 * row + column) (by omega) (by omega)]
      have e1 : ¬ (8 * row + column) % 8 = 0 := by omega
      have e2 : ¬ (8 * row + column) % 8 = 4 := by omega
      have e3 : 8 * row + column - 8 = 8 * (row - 1) + column := by omega
      rw [if_neg e1, if_neg e2, e3]
      exact xor3_cancel _ _

theorem columns_256_zero (map : Nat → Nat) (row : Nat)
    (h : ∀ column, column ≤ 7 → (row = 7 → column ≤ 3) → residual_256 map row column = 0)
    (xc : Int) : columns_256 map row 8 0 xc = xc := by
  by_cases h7 : row = 7
  · simp [columns_256, h7, h7 ▸ h 0 (by omega) (by omega), h7 ▸ h 1 (by omega) (by omega),
      h7 ▸ h 2 (by omega) (by omega), h7 ▸ h 3 (by omega) (by omega), popcount_zero]
  · simp [columns_256, h7, h 0 (by omega) (by omega), h 1 (by omega) (by omega),
      h 2 (by omega) (by omega), h 3 (by omega) (by omega), h 4 (by omega) (by omega),
      h 5 (by omega) (by omega), h 6 (by omega) (by omega), h 7 (by omega) (by omega),
      popcount_zero]

theorem rows_256_zero (map : Nat → Nat) (t : Int) (n row : Nat)
    (h : ∀ r column, row ≤ r → r < row + n → column ≤ 7 → (r = 7 → column ≤ 3) →
      residual_256 map r column = 0) :
    rows_256 map t n row 0 = 0 := by
  induction n generalizing row with
  | zero => rfl
  | succ n ih =>
    rw [rows_256, columns_256_zero map row (fun c hc h7 => h row c (by omega) (by omega) hc h7)]
    split
    · rfl
    · exact ih (row + 1) (fun r c h1 h2 hc h7 => h r c (by omega) (by omega) hc h7)

theorem xor_count_128_canonical (key : List Nat) (hk : ∀ b ∈ key, b < 256) (t : Int) :
    xor_count_128 (as_map (aes128_words key)) t = 0 :=
  rows_128_zero _ t 10 1 (fun r c h1 h2 hc =>
    residual_128_of_rel (as_map (aes128_words key)) (aes128_rel key hk) r c h1 (by omega) hc)

theorem xor_count_256_canonical (key : List Nat) (hk : ∀ b ∈ key, b < 256) (t : Int) :
    xor_count_256 (as_map (aes256_words key)) t = 0 :=
  rows_256_zero _ t 7 1 (fun r c h1 h2 hc h7 =>
    residual_256_of_rel (as_map (aes256_words key)) (aes256_rel key hk) r c h1 (by omega) hc h7)

/-! ## The short-circuit of the row loops -/

theorem columns_128_eq (map : Nat → Nat) (row : Nat) (xc : Int) :
    columns_128 map row 4 0 xc = xc + (row_sum_128 map row : Nat) := by
  simp only [columns_128, row_sum_128]
  push_cast
  omega

theorem columns_256_eq (map : Nat → Nat) (row : Nat) (xc : Int) :
    columns_256 map row 8 0 xc = xc + (row_sum_256 map row : Nat) := by
  by_cases h7 : row = 7
  · subst h7
    simp only [columns_256, row_sum_256]
    simp
    omega
  · simp only [columns_256, row_sum_256, h7, false_and, if_false]
    push_cast
    omega

theorem rows_128_full (map : Nat → Nat) (t : Int) (n row : Nat) (xc : Int)
    (h : xc + (rows_sum_128 map n row : Nat) ≤ t) :
    rows_128 map t n row xc = xc + (rows_sum_128 map n row : Nat) := by
  induction n generalizing row xc with
  | zero => simp [rows_128, rows_sum_128]
  | succ n ih =>
    rw [rows_sum_128] at h ⊢
    push_cast at h ⊢
    rw [rows_128, columns_128_eq]
    rw [if_neg (by omega), ih (row + 1) _ (by omega)]
    omega

theorem rows_128_over (map : Nat → Nat) (t : Int) (n row : Nat) (xc : Int)
    (h : t < xc + (rows_sum_128 map n row : Nat)) : t < rows_128 map t n row xc := by
  induction n generalizing row xc with
  | zero => simpa [rows_128, rows_sum_128] using h
  | succ n ih =>
    rw [rows_sum_128] at h
    push_cast at h
    rw [rows_128, columns_128_eq]
    split
    · omega
    · exact ih (row + 1) _ (by omega)

theorem rows_256_full (map : Nat → Nat) (t : Int) (n row : Nat) (xc : Int)
    (h : xc + (rows_sum_256 map n row : Nat) ≤ t) :
    rows_256 map t n row xc = xc + (rows_sum_256 map n row : Nat) := by
  induction n generalizing row xc with
  | zero => simp [rows_256, rows_sum_256]
  | succ n ih =>
    rw [rows_sum_256] at h ⊢
    push_cast at h ⊢
    rw [rows_256, columns_256_eq]
    rw [if_neg (by omega), ih (row + 1) _ (by omega)]
    omega

theorem rows_256_over (map : Nat → Nat) (t : Int) (n row : Nat) (xc : Int)
    (h : t < xc + (rows_sum_256 map n row : Nat)) : t < rows_256 map t n row xc := by
  induction n generalizing row xc with
  | zero => simpa [rows_256, rows_sum_256] using h
  | succ n ih =>
    rw [rows_sum_256] at h
    push_cast at h
    rw [rows_256, columns_256_eq]
    split
    · omega
    · exact ih (row + 1) _ (by omega)

theorem residual_sum_128_eq (map : Nat → Nat) :
    residual_sum_128 map = rows_sum_128 map 10 1 := by
  simp [residual_sum_128, rows_sum_128, row_sum_128, List.range_succ]
  omega

theorem residual_sum_256_eq (map : Nat → Nat) :
    residual_sum_256 map = rows_sum_256 map 7 1 := by
  simp [residual_sum_256, rows_sum_256, row_sum_256, List.range_succ]
  omega

theorem xor_count_128_full (map : Nat → Nat) (t : Int) (h : (residual_sum_128 map : Int) ≤ t) :
    xor_count_128 map t = residual_sum_128 map := by
  rw [residual_sum_128_eq] at h ⊢
  rw [xor_count_128, rows_128_full map t 10 1 0 (by omega)]
  omega

theorem xor_count_128_over (map : Nat → Nat) (t : Int) (h : t < (residual_sum_128 map : Int)) :
    t < xor_count_128 map t := by
  rw [residual_sum_128_eq] at h
  exact rows_128_over map t 10 1 0 (by omega)

theorem xor_count_256_full (map : Nat → Nat) (t : Int) (h : (residual_sum_256 map : Int) ≤ t) :
    xor_count_256 map t = residual_sum_256 map := by
  rw [residual_sum_256_eq] at h ⊢
  rw [xor_count_256, rows_256_full map t 7 1 0 (by omega)]
  omega

theorem xor_count_256_over (map : Nat → Nat) (t : Int) (h : t < (residual_sum_256 map : Int)) :
    t < xor_count_256 map t := by
  rw [residual_sum_256_eq] at h
  exact rows_256_over map t 7 1 0 (by omega)

theorem match_128_iff (map : Nat → Nat) (t : Int) :
    xor_count_128 map t < t ↔ (residual_sum_128 map : Int) < t := by
  by_cases h : (residual_sum_128 map : Int) ≤ t
  · rw [xor_count_128_full map t h]
  · have := xor_count_128_over map t (by omega)
    omega

theorem match_256_iff (map : Nat → Nat) (t : Int) :
    xor_count_256 map t ≤ t ↔ (residual_sum_256 map : Int) ≤ t := by
  by_cases h : (residual_sum_256 map : Int) ≤ t
  · rw [xor_count_256_full map t h]
  · have := xor_count_256_over map t (by omega)
    omega

theorem residual_128_congr (m1 m2 : Nat → Nat) (h : ∀ k, k < 44 → m1 k = m2 k)
    (row column : Nat) (hr1 : 1 ≤ row) (hr2 : row ≤ 10) (hc : column ≤ 3) :
    residual_128 m1 row column = residual_128 m2 row column := by
  unfold residual_128
  split
  · rw [h _ (by omega), h _ (by omega), h _ (by omega)]
  · rw [h _ (by omega), h _ (by omega), h _ (by omega)]

theorem rows_sum_128_congr (m1 m2 : Nat → Nat) (h : ∀ k, k < 44 → m1 k = m2 k)
    (n row : Nat) (hr1 : 1 ≤ row) (hr2 : row + n ≤ 11) :
    rows_sum_128 m1 n row = rows_sum_128 m2 n row := by
  induction n generalizing row with
  | zero => rfl
  | succ n ih =>
    rw [rows_sum_128, rows_sum_128, ih (row + 1) (by omega) (by omega)]
    simp only [row_sum_128]
    rw [residual_128_congr m1 m2 h row 0 hr1 (by omega) (by omega),
      residual_128_congr m1 m2 h row 1 hr1 (by omega) (by omega),
      residual_128_congr m1 m2 h row 2 hr1 (by omega) (by omega),
      residual_128_congr m1 m2 h row 3 hr1 (by omega) (by omega)]

theorem residual_sum_128_congr (m1 m2 : Nat → Nat) (h : ∀ k, k < 44 → m1 k = m2 k) :
    residual_sum_128 m1 = residual_sum_128 m2 := by
  rw [residual_sum_128_eq, residual_sum_128_eq,
    rows_sum_128_congr m1 m2 h 10 1 (by omega) (by omega)]

theorem residual_256_congr (m1 m2 : Nat → Nat) (h : ∀ k, k < 60 → m1 k = m2 k)
    (row column : Nat) (hr1 : 1 ≤ row) (hr2 : row ≤ 7) (hc : column ≤ 7)
    (h7 : row = 7 → column ≤ 3) :
    residual_256 m1 row column = residual_256 m2 row column := by
  unfold residual_256
  split
  · rw [h _ (by omega), h _ (by omega), h _ (by omega)]
  · split
    · rw [h _ (by omega), h _ (by omega), h _ (by omega)]
    · rw [h _ (by omega), h _ (by omega), h _ (by omega)]

theorem rows_sum_256_congr (m1 m2 : Nat → Nat) (h : ∀ k, k < 60 → m1 k = m2 k)
    (n row : Nat) (hr1 : 1 ≤ row) (hr2 : row + n ≤ 8) :
    rows_sum_256 m1 n row = rows_sum_256 m2 n row := by
  induction n generalizing row with
  | zero => rfl
  | succ n ih =>
    rw [rows_sum_256, rows_sum_256, ih (row + 1) (by omega) (by omega)]
    simp only [row_sum_256]
    by_cases h7 : row = 7
    · rw [if_pos h7, if_pos h7,
        residual_256_congr m1 m2 h row 0 hr1 (by omega) (by omega) (by omega),
        residual_256_congr m1 m2 h row 1 hr1 (by omega) (by omega) (by omega),
        residual_256_congr m1 m2 h row 2 hr1 (by omega) (by omega) (by omega),
        residual_256_congr m1 m2 h row 3 hr1 (by omega) (by omega) (by omega)]
    · rw [if_neg h7, if_neg h7,
        residual_256_congr m1 m2 h row 0 hr1 (by omega) (by omega) (by omega),
        residual_256_congr m1 m2 h row 1 hr1 (by omega) (by omega) (by omega),
        residual_256_congr m1 m2 h row 2 hr1 (by omega) (by omega) (by omega),
        residual_256_congr m1 m2 h row 3 hr1 (by omega) (by omega) (by omega),
        residual_256_congr m1 m2 h row 4 hr1 (by omega) (by omega) (by omega),
        residual_256_congr m1 m2 h row 5 hr1 (by omega) (by omega) (by omega),
        residual_256_congr m1 m2 h row 6 hr1 (by omega) (by omega) (by omega),
        residual_256_congr m1 m2 h row 7 hr1 (by omega) (by omega) (by omega)]

theorem residual_sum_256_congr (m1 m2 : Nat → Nat) (h : ∀ k, k < 60 → m1 k = m2 k) :
    residual_sum_256 m1 = residual_sum_256 m2 := by
  rw [residual_sum_256_eq, residual_sum_256_eq,
    rows_sum_256_congr m1 m2 h 7 1 (by omega) (by omega)]

theorem residual_sum_128_canonical (key : List Nat) (hk : ∀ b ∈ key, b < 256) :
    residual_sum_128 (as_map (aes128_words key)) = 0 := by
  by_contra h
  have hpos : 0 < residual_sum_128 (as_map (aes128_words key)) := Nat.pos_of_ne_zero h
  have h1 := xor_count_128_over (as_map (aes128_words key)) 0 (by omega)
  rw [xor_count_128_canonical key hk 0] at h1
  omega

theorem residual_sum_256_canonical (key : List Nat) (hk : ∀ b ∈ key, b < 256) :
    residual_sum_256 (as_map (aes256_words key)) = 0 := by
  by_contra h
  have hpos : 0 < residual_sum_256 (as_map (aes256_words key)) := Nat.pos_of_ne_zero h
  have h1 := xor_count_256_over (as_map (aes256_words key)) 0 (by omega)
  rw [xor_count_256_canonical key hk 0] at h1
  omega

/-! ## The sliding histogram of `entropy` -/

theorem window_succ_count (bmap : List Nat) (i : Nat) (h : i + 176 < bmap.length) (b : Nat) :
    ((window bmap (i + 1)).count b : Int)
      = (window bmap i).count b - (if byte_at bmap i = b then 1 else 0)
        + (if byte_at bmap (i + 176) = b then 1 else 0) := by
  have hi : i < bmap.length := by omega
  have e1 : (bmap.drop i).take 177 = byte_at bmap i :: window bmap (i + 1) := by
    rw [List.drop_eq_getElem_cons hi, List.take_succ_cons]
    simp [window, byte_at, List.getD_eq_getElem?_getD, List.getElem?_eq_getElem hi]
  have e2 : (bmap.drop i).take 177 = window bmap i ++ [byte_at bmap (i + 176)] := by
    rw [List.take_succ]
    simp [window, byte_at, List.getD_eq_getElem?_getD, List.getElem?_eq_getElem h]
  have e3 := congrArg (List.count b) (e1.symm.trans e2)
  rw [List.count_cons, List.count_append, List.count_singleton] at e3
  simp only [beq_iff_eq] at e3
  split at e3 <;> split at e3 <;> (simp_all; try omega)

theorem fill_freq_count (bmap : List Nat) (n j : Nat) (f : Nat → Int) (h : j + n ≤ bmap.length)
    (b : Nat) : fill_freq bmap n j f b = f b + (((bmap.drop j).take n).count b : Nat) := by
  induction n generalizing j f with
  | zero => simp [fill_freq]
  | succ n ih =>
    have hj : j < bmap.length := by omega
    rw [fill_freq, ih (j + 1) _ (by omega), List.drop_eq_getElem_cons hj, List.take_succ_cons,
      List.count_cons]
    simp only [bump, byte_at, List.getD_eq_getElem?_getD, List.getElem?_eq_getElem hj,
      Option.getD_some, beq_iff_eq]
    by_cases hb : b = bmap[j]
    · subst hb; simp; omega
    · have hb2 : ¬ bmap[j] = b := fun e => hb e.symm
      simp [hb, hb2]

theorem freq_test_congr (f g : Nat → Int) (h : ∀ b, f b = g b) : freq_test f = freq_test g := by
  have e : f = g := funext h
  rw [e]

theorem freq_test_window (bmap : List Nat) (i : Nat) :
    freq_test (fun b => (((window bmap i).count b : Nat) : Int)) = window_reject bmap i := by
  unfold freq_test window_reject
  congr 1
  funext b
  simp

theorem entropy_first (bmap : List Nat) (h : 176 < bmap.length) :
    (entropy entropy_start bmap 0).1 = window_reject bmap 0 ∧
    tracks (entropy entropy_start bmap 0).2 bmap 1 := by
  have hf : ∀ b, fill_freq bmap 176 0 (fun _ => 0) b = (((window bmap 0).count b : Nat) : Int) := by
    intro b
    rw [fill_freq_count bmap 176 0 _ (by omega)]
    simp [window]
  constructor
  · simp only [entropy, entropy_start, if_true]
    rw [freq_test_congr _ _ hf, freq_test_window]
  · refine ⟨rfl, fun b => ?_⟩
    simp only [entropy, entropy_start, if_true, bump, hf]
    have hw := window_succ_count bmap 0 (by omega) b
    simp only [Nat.zero_add] at hw ⊢
    rw [hw]
    by_cases h1 : b = byte_at bmap 0 <;> by_cases h2 : b = byte_at bmap 176 <;>
      simp [h1, h2, eq_comm] <;> omega

theorem entropy_next (st : EntropyState) (bmap : List Nat) (i : Nat) (h : i + 176 < bmap.length)
    (ht : tracks st bmap i) :
    (entropy st bmap i).1 = window_reject bmap i ∧ tracks (entropy st bmap i).2 bmap (i + 1) := by
  obtain ⟨hn, hf⟩ := ht
  have hb : (if st.new_call = true then fill_freq bmap 176 0 st.byte_freq else st.byte_freq)
      = st.byte_freq := by simp [hn]
  constructor
  · simp only [entropy, hb]
    rw [← freq_test_window]
    exact freq_test_congr _ _ hf
  · refine ⟨rfl, fun b => ?_⟩
    simp only [entropy, hb, bump, hf]
    rw [window_succ_count bmap i h b]
    by_cases h1 : b = byte_at bmap i <;> by_cases h2 : b = byte_at bmap (i + 176) <;>
      simp [h1, h2, eq_comm] <;> omega

theorem scan_loop_tracked (bmap : List Nat) (t : Int) (n i : Nat) (st : EntropyState)
    (h : i + n + 176 ≤ bmap.length) (ht : tracks st bmap i) :
    scan_loop bmap t n i st = scan_windows bmap t n i := by
  induction n generalizing i st with
  | zero => rfl
  | succ n ih =>
    obtain ⟨e1, e2⟩ := entropy_next st bmap i (by omega) ht
    rw [scan_loop, scan_windows]
    simp only [e1]
    rw [ih (i + 1) _ (by omega) e2]

/-- The scan of `find_keys` with the sliding histogram visits the same offsets and emits the
same reports as the scan that judges every window on its own 176 bytes. -/
theorem find_keys_eq_scan_windows (bmap : List Nat) (last : Nat) (t : Int)
    (h : last + 176 ≤ bmap.length) : find_keys bmap last t = scan_windows bmap t last 0 := by
  unfold find_keys
  cases last with
  | zero => rfl
  | succ n =>
    obtain ⟨e1, e2⟩ := entropy_first bmap (by omega)
    rw [scan_loop, scan_windows]
    simp only [e1]
    rw [scan_loop_tracked bmap t n 1 _ (by omega) e2]

theorem mem_scan_windows (bmap : List Nat) (t : Int) (n i : Nat) (r : KeyReport) :
    r ∈ scan_windows bmap t n i ↔
      ∃ j, i ≤ j ∧ j < i + n ∧ window_reject bmap j = false ∧ r ∈ scan_offset bmap t j := by
  induction n generalizing i with
  | zero =>
    simp only [scan_windows, List.not_mem_nil, false_iff]
    rintro ⟨j, h1, h2, -⟩
    omega
  | succ n ih =>
    rw [scan_windows, List.mem_append, ih]
    constructor
    · rintro (h | ⟨j, h1, h2, h3⟩)
      · by_cases hr : window_reject bmap i = true
        · simp [hr] at h
        · simp only [hr] at h
          exact ⟨i, Nat.le_refl _, by omega, by simpa using hr, by simpa using h⟩
      · exact ⟨j, by omega, by omega, h3⟩
    · rintro ⟨j, h1, h2, h3, h4⟩
      by_cases hj : j = i
      · subst hj
        left
        simp [h3, h4]
      · right
        exact ⟨j, by omega, by omega, h3, h4⟩

theorem scan_windows_all_reject (bmap : List Nat) (t : Int) (n i : Nat)
    (h : ∀ j, i ≤ j → j < i + n → window_reject bmap j = true) : scan_windows bmap t n i = [] := by
  induction n generalizing i with
  | zero => rfl
  | succ n ih =>
    rw [scan_windows, h i (Nat.le_refl _) (by omega), ih (i + 1) (fun j h1 h2 => h j (by omega) (by omega))]
    rfl

theorem window_sub (bmap : List Nat) (i : Nat) (b : Nat) (hb : b ∈ window bmap i) : b ∈ bmap :=
  List.mem_of_mem_drop (List.mem_of_mem_take hb)

theorem window_reject_of_count (bmap : List Nat) (hb : is_image bmap) (i b : Nat)
    (h : (window bmap i).count b > 8) : window_reject bmap i = true := by
  have hm : b ∈ window bmap i := List.count_pos_iff.1 (by omega)
  have hlt : b < 256 := hb b (window_sub bmap i b hm)
  unfold window_reject
  rw [List.any_eq_true]
  exact ⟨b, List.mem_range.2 hlt, by simpa using h⟩

theorem no_match_of_all_reject (image : List Nat) (t : Int) (hlen : 240 ≤ image.length)
    (himg : is_image image)
    (hrej : ∀ i, i < image.length - 240 → ∃ b, (window image i).count b > 8) :
    aeskeyfind image t = some [] := by
  unfold aeskeyfind
  rw [if_neg (by omega), find_keys_eq_scan_windows image _ t (by omega),
    scan_windows_all_reject image t _ 0 (fun j _ h2 => by
      obtain ⟨b, hb⟩ := hrej j (by omega)
      exact window_reject_of_count image himg j b hb)]

theorem window_replicate_zero (n i : Nat) (h : i + 176 ≤ n) :
    (window (List.replicate n 0) i).count 0 = 176 := by
  simp only [window, List.drop_replicate, List.take_replicate, List.count_replicate_self]
  omega

/-! ## Packed histograms: a quick way to evaluate the entropy test -/

theorem hist_split (b : Nat) (w : List Nat) :
    ∃ L M, byte_hist w = L + w.count b * 256 ^ b + 256 ^ (b + 1) * M ∧
      L * 256 ≤ w.length * 256 ^ b := by
  induction w with
  | nil => exact ⟨0, 0, by simp [byte_hist], by simp⟩
  | cons x w ih =>
    obtain ⟨L, M, h1, h2⟩ := ih
    have hc : byte_hist (x :: w) = 256 ^ x + byte_hist w := by simp [byte_hist]
    rcases Nat.lt_trichotomy x b with hx | hx | hx
    · refine ⟨L + 256 ^ x, M, ?_, ?_⟩
      · rw [hc, h1, List.count_cons_of_ne (by omega)]
        omega
      · have hp : 256 ^ x * 256 ≤ 256 ^ b := by
          rw [← Nat.pow_succ]
          exact Nat.pow_le_pow_right (by omega) hx
        rw [List.length_cons, Nat.add_mul, Nat.add_mul, Nat.one_mul]
        omega
    · subst hx
      refine ⟨L, M, ?_, ?_⟩
      · rw [hc, h1, List.count_cons_self, Nat.add_mul, Nat.one_mul]
        omega
      · rw [List.length_cons, Nat.add_mul]
        omega
    · refine ⟨L, M + 256 ^ (x - b - 1), ?_, ?_⟩
      · have hp : 256 ^ x = 256 ^ (b + 1) * 256 ^ (x - b - 1) := by
          rw [← Nat.pow_add]
          congr 1
          omega
        rw [hc, h1, List.count_cons_of_ne (by omega), Nat.mul_add, ← hp]
        omega
      · rw [List.length_cons, Nat.add_mul]
        omega

theorem hist_digit (b : Nat) (w : List Nat) (hw : w.length < 256) :
    byte_hist w / 256 ^ b % 256 = w.count b := by
  obtain ⟨L, M, h1, h2⟩ := hist_split b w
  have hB : 0 < 256 ^ b := Nat.pow_pos (by omega)
  have hL : L < 256 ^ b := by
    have : w.length * 256 ^ b < 256 * 256 ^ b := Nat.mul_lt_mul_of_pos_right hw hB
    have h3 : L * 256 < 256 ^ b * 256 := by rw [Nat.mul_comm (256 ^ b)]; omega
    exact Nat.lt_of_mul_lt_mul_right h3
  have hc : w.count b < 256 := Nat.lt_of_le_of_lt (List.count_le_length b w) hw
  have e : byte_hist w = L + 256 ^ b * (w.count b + 256 * M) := by
    rw [h1, Nat.pow_succ, Nat.mul_add, Nat.mul_comm (w.count b), Nat.mul_assoc, Nat.add_assoc]
  rw [e, Nat.add_mul_div_left _ _ hB, Nat.div_eq_of_lt hL, Nat.zero_add,
    Nat.add_mul_mod_self_left, Nat.mod_eq_of_lt hc]

theorem window_length_le (bmap : List Nat) (i : Nat) : (window bmap i).length ≤ 176 := by
  simp only [window, List.length_take]
  omega

/-- A window whose packed histogram has no digit above 8 passes the entropy test. -/
theorem window_accept_of_hist (bmap : List Nat) (i : Nat)
    (h : hist_accepts (byte_hist (window bmap i)) = true) : window_reject bmap i = false := by
  have hl := window_length_le bmap i
  unfold hist_accepts at h
  rw [List.all_eq_true] at h
  unfold window_reject
  rw [List.any_eq_false]
  intro b hb
  have := h b hb
  rw [hist_digit b _ (by omega)] at this
  simpa using this

/-! ## The two match tests -/

theorem check_128_eq (bmap : List Nat) (t : Int) (i tweaks : Nat) :
    check_128 bmap t i tweaks
      = if (residual_sum_128 (as_map (tweak_map bmap i tweaks)) : Int) < t then
          [⟨tweak_map bmap i tweaks, 128, i, tweaks⟩]
        else [] := by
  unfold check_128
  simp only
  by_cases h : (residual_sum_128 (as_map (tweak_map bmap i tweaks)) : Int) < t
  · rw [if_pos h, if_pos ((match_128_iff _ t).2 h)]
  · rw [if_neg h, if_neg (fun h2 => h ((match_128_iff (as_map _) t).1 h2))]

theorem check_256_eq (bmap : List Nat) (t : Int) (i : Nat) :
    check_256 bmap t i
      = if (residual_sum_256 (word_at bmap i) : Int) ≤ t then
          [⟨(List.range 60).map (word_at bmap i), 256, i, 0⟩]
        else [] := by
  unfold check_256
  by_cases h : (residual_sum_256 (word_at bmap i) : Int) ≤ t
  · rw [if_pos h, if_pos ((match_256_iff _ t).2 h)]
  · rw [if_neg h, if_neg (fun h2 => h ((match_256_iff _ t).1 h2))]

theorem scan_offset_eq (bmap : List Nat) (t : Int) (i : Nat) :
    scan_offset bmap t i
      = check_256 bmap t i ++ (check_128 bmap t i 0 ++ (check_128 bmap t i 1
          ++ (check_128 bmap t i 2 ++ check_128 bmap t i 3))) := by
  simp [scan_offset, MAX_TWEAKS, tweak_loop]

theorem mem_find_keys (bmap : List Nat) (last : Nat) (t : Int) (h : last + 176 ≤ bmap.length)
    (r : KeyReport) :
    r ∈ find_keys bmap last t ↔
      ∃ j, j < last ∧ window_reject bmap j = false ∧ r ∈ scan_offset bmap t j := by
  rw [find_keys_eq_scan_windows bmap last t h, mem_scan_windows]
  constructor
  · rintro ⟨j, -, h2, h3⟩
    exact ⟨j, by omega, h3⟩
  · rintro ⟨j, h2, h3⟩
    exact ⟨j, Nat.zero_le _, by omega, h3⟩

theorem scan_offset_address (bmap : List Nat) (t : Int) (i : Nat) (r : KeyReport)
    (h : r ∈ scan_offset bmap t i) : r.address = i := by
  rw [scan_offset_eq] at h
  simp only [check_256, check_128, List.mem_append] at h
  rcases h with h | h | h | h | h <;>
    (split at h
     · rw [List.mem_singleton.1 h]
     · exact absurd h (List.not_mem_nil _))

theorem no_report_at_rejected (bmap : List Nat) (last : Nat) (t : Int)
    (h : last + 176 ≤ bmap.length) (i : Nat) (hi : window_reject bmap i = true) :
    (find_keys bmap last t).all (fun r => r.address != i) = true := by
  rw [List.all_eq_true]
  intro r hr
  obtain ⟨j, -, hj, hm⟩ := (mem_find_keys bmap last t h r).1 hr
  have ha := scan_offset_address bmap t j r hm
  have hne : j ≠ i := fun e => by rw [e, hi] at hj; exact Bool.noConfusion hj
  simp only [bne_iff_ne, ne_eq, ha]
  exact hne

theorem check_128_zero (bmap : List Nat) (i tweaks : Nat) : check_128 bmap 0 i tweaks = [] := by
  rw [check_128_eq, if_neg (by omega)]

theorem scan_offset_zero (bmap : List Nat) (i : Nat) :
    (scan_offset bmap 0 i).all (fun r => r.num_bits != 128) = true := by
  rw [scan_offset_eq]
  simp only [check_128_zero, List.append_nil]
  unfold check_256
  split <;> simp

theorem scan_loop_zero (bmap : List Nat) (n i : Nat) (st : EntropyState) :
    (scan_loop bmap 0 n i st).all (fun r => r.num_bits != 128) = true := by
  induction n generalizing i st with
  | zero => rfl
  | succ n ih =>
    rw [scan_loop, List.all_append, ih, Bool.and_true]
    split
    · rfl
    · exact scan_offset_zero bmap i

/-- An image of 241 bytes has one scanned offset; when nothing matches there, whatever the
entropy test says, nothing is reported. -/
theorem aeskeyfind_one_offset (image : List Nat) (t : Int) (hlen : image.length = 241)
    (h : scan_offset image t 0 = []) : aeskeyfind image t = some [] := by
  have e : image.length - 240 = 1 := by omega
  unfold aeskeyfind
  rw [if_neg (by omega), find_keys_eq_scan_windows image _ t (by omega), e]
  simp [scan_windows, h]

/-! ## Tweaked layouts -/

theorem tweak_map_zero (bmap : List Nat) (i : Nat) :
    tweak_map bmap i 0 = (List.range 44).map (word_at bmap i) := by
  simp [tweak_map, TWEAK_REVERSE_ORDER, TWEAK_INVMIXCOLUMN]

theorem tweak_map_one (bmap : List Nat) (i : Nat) :
    tweak_map bmap i 1 = unconvert_key ((List.range 44).map (word_at bmap i)) 10 := by
  simp [tweak_map, TWEAK_REVERSE_ORDER, TWEAK_INVMIXCOLUMN]

theorem reverse_rows_closed (bmap : List Nat) (i : Nat) :
    reverse_rows bmap i 11 0 (List.replicate 44 0)
      = (List.range 44).map (fun k => word_at bmap i (4 * (10 - k / 4) + k % 4)) := by
  simp [reverse_rows, copy_row, List.replicate, List.range_succ]

theorem tweak_map_two (bmap : List Nat) (i : Nat) :
    tweak_map bmap i 2
      = (List.range 44).map (fun k => word_at bmap i (4 * (10 - k / 4) + k % 4)) := by
  rw [← reverse_rows_closed]
  simp [tweak_map, TWEAK_REVERSE_ORDER, TWEAK_INVMIXCOLUMN]

theorem tweak_map_three (bmap : List Nat) (i : Nat) :
    tweak_map bmap i 3
      = unconvert_key
          ((List.range 44).map (fun k => word_at bmap i (4 * (10 - k / 4) + k % 4))) 10 := by
  rw [← reverse_rows_closed]
  simp [tweak_map, TWEAK_REVERSE_ORDER, TWEAK_INVMIXCOLUMN]

theorem reverse_index (k : Nat) (hk : k < 44) :
    4 * (10 - (4 * (10 - k / 4) + k % 4) / 4) + (4 * (10 - k / 4) + k % 4) % 4 = k := by
  omega

theorem tweak_map_two_reversed (S : List Nat) (hS : S.length = 44) (bmap : List Nat) (i : Nat)
    (hwin : (List.range 44).map (word_at bmap i) = reverse_round_keys S) :
    tweak_map bmap i 2 = S := by
  have hw : ∀ k, k < 44 → word_at bmap i k = S.getD (4 * (10 - k / 4) + k % 4) 0 := by
    intro k hk
    have e1 := as_map_range (word_at bmap i) 44 k hk
    rw [hwin, reverse_round_keys, as_map_range _ 44 k hk] at e1
    exact e1.symm
  rw [tweak_map_two]
  apply list_ext_getD _ _ (by simp [hS])
  intro j hj
  simp only [List.length_map, List.length_range] at hj
  have e := as_map_range (fun k => word_at bmap i (4 * (10 - k / 4) + k % 4)) 44 j hj
  unfold as_map at e
  rw [e]
  show word_at bmap i (4 * (10 - j / 4) + j % 4) = S.getD j 0
  rw [hw _ (by omega), reverse_index j hj]

theorem residual_sum_tweak_zero (bmap : List Nat) (i : Nat) :
    residual_sum_128 (as_map (tweak_map bmap i 0)) = residual_sum_128 (word_at bmap i) := by
  rw [tweak_map_zero]
  exact residual_sum_128_congr _ _ (fun k hk => as_map_range _ 44 k hk)

/-- Every scanned offset whose window passes the entropy test and whose 128-bit residual sum
under mask 0 is below the threshold is reported. -/
theorem reported_128 (bmap : List Nat) (t : Int) (i : Nat) (hi : i + 240 < bmap.length)
    (hw : window_reject bmap i = false)
    (hs : (residual_sum_128 (word_at bmap i) : Int) < t) :
    ∃ r ∈ find_keys bmap (bmap.length - 240) t,
      r.num_bits = 128 ∧ r.address = i ∧ r.tweaks = 0 := by
  refine ⟨⟨tweak_map bmap i 0, 128, i, 0⟩, ?_, rfl, rfl, rfl⟩
  rw [mem_find_keys _ _ _ (by omega)]
  refine ⟨i, by omega, hw, ?_⟩
  rw [scan_offset_eq, check_128_eq bmap t i 0, residual_sum_tweak_zero, if_pos hs]
  simp

/-- Every scanned offset whose window passes the entropy test and whose 256-bit residual sum
is at most the threshold is reported. -/
theorem reported_256 (bmap : List Nat) (t : Int) (i : Nat) (hi : i + 240 < bmap.length)
    (hw : window_reject bmap i = false)
    (hs : (residual_sum_256 (word_at bmap i) : Int) ≤ t) :
    ∃ r ∈ find_keys bmap (bmap.length - 240) t, r.num_bits = 256 ∧ r.address = i := by
  refine ⟨⟨(List.range 60).map (word_at bmap i), 256, i, 0⟩, ?_, rfl, rfl⟩
  rw [mem_find_keys _ _ _ (by omega)]
  refine ⟨i, by omega, hw, ?_⟩
  rw [scan_offset_eq, check_256_eq, if_pos hs]
  simp

/-! ## A byte block inside a larger image -/

theorem byte_at_embed (pre S suf : List Nat) (j : Nat) (hj : j < S.length) :
    byte_at (pre ++ S ++ suf) (pre.length + j) = byte_at S j := by
  unfold byte_at
  rw [List.append_assoc, List.getD_append_right _ _ _ _ (by omega),
    List.getD_append _ _ _ _ (by omega)]
  congr 1
  omega

theorem word_at_embed (pre S suf : List Nat) (k : Nat) (hk : 4 * k + 3 < S.length) :
    word_at (pre ++ S ++ suf) pre.length k = word_at S 0 k := by
  unfold word_at
  have e1 : pre.length + 4 * k + 1 = pre.length + (4 * k + 1) := by omega
  have e2 : pre.length + 4 * k + 2 = pre.length + (4 * k + 2) := by omega
  have e3 : pre.length + 4 * k + 3 = pre.length + (4 * k + 3) := by omega
  rw [e1, e2, e3, byte_at_embed pre S suf (4 * k) (by omega),
    byte_at_embed pre S suf (4 * k + 1) (by omega),
    byte_at_embed pre S suf (4 * k + 2) (by omega),
    byte_at_embed pre S suf (4 * k + 3) (by omega)]
  simp only [Nat.zero_add]

theorem window_embed (pre S suf : List Nat) (hS : S.length = 176) :
    window (pre ++ S ++ suf) pre.length = S := by
  unfold window
  rw [List.append_assoc, List.drop_left, List.take_left' hS]

theorem window_embed_take (pre S suf : List Nat) (hS : 176 ≤ S.length) :
    window (pre ++ S ++ suf) pre.length = S.take 176 := by
  unfold window
  rw [List.append_assoc, List.drop_left, List.take_append_of_le_length hS]

theorem window_reject_embed (pre S suf : List Nat) (hS : S.length = 176) :
    window_reject (pre ++ S ++ suf) pre.length = window_reject S 0 := by
  have e : window S 0 = S := by
    unfold window
    rw [List.drop_zero, List.take_of_length_le (by omega)]
  unfold window_reject
  rw [window_embed pre S suf hS, e]

theorem words_embed (pre S suf : List Nat) (hS : 176 ≤ S.length) :
    (List.range 44).map (word_at (pre ++ S ++ suf) pre.length)
      = (List.range 44).map (word_at S 0) := by
  apply List.map_congr_left
  intro k hk
  have := List.mem_range.1 hk
  exact word_at_embed pre S suf k (by omega)

theorem word_at_cons4 (a b c d : Nat) (l : List Nat) (k : Nat) :
    word_at (a :: b :: c :: d :: l) 0 (k + 1) = word_at l 0 k := by
  unfold word_at byte_at
  have e0 : 0 + 4 * (k + 1) = 0 + 4 * k + 4 := by omega
  have e1 : 0 + 4 * (k + 1) + 1 = 0 + 4 * k + 1 + 4 := by omega
  have e2 : 0 + 4 * (k + 1) + 2 = 0 + 4 * k + 2 + 4 := by omega
  have e3 : 0 + 4 * (k + 1) + 3 = 0 + 4 * k + 3 + 4 := by omega
  rw [e1, e2, e3, e0, getD_cons4, getD_cons4, getD_cons4, getD_cons4]

theorem word_at_schedule_bytes (ws : List FipsWord) (k : Nat) (hk : k < ws.length) :
    word_at (schedule_bytes ws) 0 k = le_word (ws.getD k ⟨0, 0, 0, 0⟩) := by
  induction ws generalizing k with
  | nil => simp at hk
  | cons w ws ih =>
    have e : schedule_bytes (w :: ws)
        = w.a0 :: w.a1 :: w.a2 :: w.a3 :: schedule_bytes ws := by
      simp [schedule_bytes]
    rw [e]
    cases k with
    | zero => simp [word_at, byte_at, le_word]
    | succ k =>
      rw [word_at_cons4, ih k (by simpa using hk)]
      simp

/-- Reading the bytes of a schedule back as little-endian words gives the schedule words. -/
theorem words_schedule_bytes (ws : List FipsWord) (n : Nat) (hn : ws.length = n) :
    (List.range n).map (word_at (schedule_bytes ws) 0) = ws.map le_word := by
  apply list_ext_getD _ _ (by simp [hn])
  intro j hj
  simp only [List.length_map, List.length_range] at hj
  have e1 := as_map_range (word_at (schedule_bytes ws) 0) n j hj
  have e2 := as_map_words ws j
  unfold as_map at e1 e2
  rw [e1, e2, word_at_schedule_bytes ws j (by omega)]

theorem schedule_bytes_length (ws : List FipsWord) :
    (schedule_bytes ws).length = 4 * ws.length := by
  induction ws with
  | nil => rfl
  | cons w ws ih =>
    have e : schedule_bytes (w :: ws)
        = w.a0 :: w.a1 :: w.a2 :: w.a3 :: schedule_bytes ws := by
      simp [schedule_bytes]
    rw [e]
    simp only [List.length_cons, ih]
    omega

/-! ## GF(2^8) doubling is linear over XOR -/

theorem and_80 (x : Nat) : x &&& 0x80 = if x.testBit 7 then 0x80 else 0 := by
  apply Nat.eq_of_testBit_eq
  intro i
  have h128 : (0x80 : Nat).testBit i = decide (7 = i) := Nat.testBit_two_pow (n := 7)
  rw [Nat.testBit_and]
  by_cases hi : 7 = i
  · subst hi
    cases hx : x.testBit 7 <;> simp [hx]
  · cases hx : x.testBit 7 <;> simp [hx, hi, h128]

theorem xtime_carry (x : Nat) :
    (if x &&& 0x80 ≠ 0 then 0x1b else 0) = if x.testBit 7 then 0x1b else 0 := by
  rw [and_80]
  cases x.testBit 7 <;> simp

theorem xtime_xor (x y : Nat) : xtime (x ^^^ y) = xtime x ^^^ xtime y := by
  have e : (256 : Nat) = 2 ^ 8 := rfl
  unfold xtime
  rw [xtime_carry, xtime_carry, xtime_carry]
  apply Nat.eq_of_testBit_eq
  intro i
  simp only [e, Nat.testBit_mod_two_pow, Nat.testBit_xor, Nat.testBit_shiftLeft]
  generalize decide (i < 8) = A
  generalize decide (i ≥ 1) = B
  generalize x.testBit (i - 1) = p
  generalize y.testBit (i - 1) = q
  cases hx : x.testBit 7 <;> cases hy : y.testBit 7 <;> simp <;>
    generalize Nat.testBit 27 i = r <;>
    cases A <;> cases B <;> cases p <;> cases q <;> cases r <;> rfl

theorem AES_xtime_eq : ∀ x < 256, AES_xtime x = xtime x := by decide!

theorem gf_mul_0e (s : Nat) :
    gf_mul 0x0e s = xtime s ^^^ xtime (xtime s) ^^^ xtime (xtime (xtime s)) := by
  simp [gf_mul, List.range_succ, Nat.testBit]

theorem gf_mul_0b (s : Nat) : gf_mul 0x0b s = s ^^^ xtime s ^^^ xtime (xtime (xtime s)) := by
  simp [gf_mul, List.range_succ, Nat.testBit]

theorem gf_mul_0d (s : Nat) :
    gf_mul 0x0d s = s ^^^ xtime (xtime s) ^^^ xtime (xtime (xtime s)) := by
  simp [gf_mul, List.range_succ, Nat.testBit]

theorem gf_mul_09 (s : Nat) : gf_mul 0x09 s = s ^^^ xtime (xtime (xtime s)) := by
  simp [gf_mul, List.range_succ, Nat.testBit]

theorem gf_mul_02 (s : Nat) : gf_mul 0x02 s = xtime s := by
  simp [gf_mul, List.range_succ, Nat.testBit]

theorem gf_mul_03 (s : Nat) : gf_mul 0x03 s = s ^^^ xtime s := by
  simp [gf_mul, List.range_succ, Nat.testBit]

/-- The column step of `unconvert_key` undoes `InvMixColumns`, for any XOR-linear doubling. -/
theorem mix_inv_abstract (f : Nat → Nat) (hf : ∀ x y, f (x ^^^ y) = f x ^^^ f y)
    (u0 u1 u2 u3 v0 v1 v2 v3 : Nat)
    (h0 : v0 = (f u0 ^^^ f (f u0) ^^^ f (f (f u0))) ^^^ (u1 ^^^ f u1 ^^^ f (f (f u1)))
      ^^^ (u2 ^^^ f (f u2) ^^^ f (f (f u2))) ^^^ (u3 ^^^ f (f (f u3))))
    (h1 : v1 = (u0 ^^^ f (f (f u0))) ^^^ (f u1 ^^^ f (f u1) ^^^ f (f (f u1)))
      ^^^ (u2 ^^^ f u2 ^^^ f (f (f u2))) ^^^ (u3 ^^^ f (f u3) ^^^ f (f (f u3))))
    (h2 : v2 = (u0 ^^^ f (f u0) ^^^ f (f (f u0))) ^^^ (u1 ^^^ f (f (f u1)))
      ^^^ (f u2 ^^^ f (f u2) ^^^ f (f (f u2))) ^^^ (u3 ^^^ f u3 ^^^ f (f (f u3))))
    (h3 : v3 = (u0 ^^^ f u0 ^^^ f (f (f u0))) ^^^ (u1 ^^^ f (f u1) ^^^ f (f (f u1)))
      ^^^ (u2 ^^^ f (f (f u2))) ^^^ (f u3 ^^^ f (f u3) ^^^ f (f (f u3)))) :
    v0 ^^^ ((v0 ^^^ v1 ^^^ v2 ^^^ v3) ^^^ f (v0 ^^^ v1)) = u0 ∧
    v1 ^^^ ((v0 ^^^ v1 ^^^ v2 ^^^ v3) ^^^ f (v1 ^^^ v2)) = u1 ∧
    v2 ^^^ ((v0 ^^^ v1 ^^^ v2 ^^^ v3) ^^^ f (v2 ^^^ v3)) = u2 ∧
    v3 ^^^ ((v0 ^^^ v1 ^^^ v2 ^^^ v3) ^^^ f (v3 ^^^ v0)) = u3 := by
  subst h0 h1 h2 h3
  simp only [hf]
  refine ⟨?_, ?_, ?_, ?_⟩ <;>
    (ac_nf; simp only [Nat.xor_self, Nat.xor_zero, Nat.xor_cancel_left])

theorem InvMixColumn_ok (u : FipsWord) (hu : u.ok) : (InvMixColumn u).ok := by
  obtain ⟨h0, h1, h2, h3⟩ := hu
  have x1 : ∀ s, xtime s < 2 ^ 8 := xtime_lt
  have hx : ∀ a b : Nat, a < 2 ^ 8 → b < 2 ^ 8 → a ^^^ b < 2 ^ 8 := fun a b =>
    Nat.xor_lt_two_pow
  simp only [FipsWord.ok, InvMixColumn, gf_mul_0e, gf_mul_0b, gf_mul_0d, gf_mul_09]
  refine ⟨?_, ?_, ?_, ?_⟩ <;>
    repeat (first | exact x1 _ | assumption | apply hx)

theorem unconvert_word_le_word (v : FipsWord) (hv : v.ok) :
    unconvert_word (le_word v)
      = le_word ⟨v.a0 ^^^ ((v.a0 ^^^ v.a1 ^^^ v.a2 ^^^ v.a3) ^^^ xtime (v.a0 ^^^ v.a1)),
          v.a1 ^^^ ((v.a0 ^^^ v.a1 ^^^ v.a2 ^^^ v.a3) ^^^ xtime (v.a1 ^^^ v.a2)),
          v.a2 ^^^ ((v.a0 ^^^ v.a1 ^^^ v.a2 ^^^ v.a3) ^^^ xtime (v.a2 ^^^ v.a3)),
          v.a3 ^^^ ((v.a0 ^^^ v.a1 ^^^ v.a2 ^^^ v.a3) ^^^ xtime (v.a3 ^^^ v.a0))⟩ := by
  obtain ⟨h0, h1, h2, h3⟩ := hv
  have hx : ∀ a b : Nat, a < 256 → b < 256 → a ^^^ b < 256 := fun a b =>
    Nat.xor_lt_two_pow (n := 8)
  have b0 : le_word v &&& 0xFF = v.a0 := by
    rw [and_ff]; simp only [le_word]; omega
  have b1 : (le_word v >>> 8) &&& 0xFF = v.a1 := by
    rw [and_ff, Nat.shiftRight_eq_div_pow]; simp only [le_word]; omega
  have b2 : (le_word v >>> 16) &&& 0xFF = v.a2 := by
    rw [and_ff, Nat.shiftRight_eq_div_pow]; simp only [le_word]; omega
  have b3 : (le_word v >>> 24) &&& 0xFF = v.a3 := by
    rw [and_ff, Nat.shiftRight_eq_div_pow]; simp only [le_word]; omega
  have t := xtime_lt
  unfold unconvert_word
  simp only [b0, b1, b2, b3]
  rw [AES_xtime_eq _ (hx _ _ h0 h1), AES_xtime_eq _ (hx _ _ h1 h2),
    AES_xtime_eq _ (hx _ _ h2 h3), AES_xtime_eq _ (hx _ _ h3 h0)]
  have hs := hx _ _ (hx _ _ (hx _ _ h0 h1) h2) h3
  rw [pack_or _ _ _ _ (hx _ _ h0 (hx _ _ hs (t _))) (hx _ _ h1 (hx _ _ hs (t _)))
    (hx _ _ h2 (hx _ _ hs (t _)))]
  simp only [le_word]
  apply Nat.mod_eq_of_lt
  have q0 := hx _ _ h0 (hx _ _ hs (t (v.a0 ^^^ v.a1)))
  have q1 := hx _ _ h1 (hx _ _ hs (t (v.a1 ^^^ v.a2)))
  have q2 := hx _ _ h2 (hx _ _ hs (t (v.a2 ^^^ v.a3)))
  have q3 := hx _ _ h3 (hx _ _ hs (t (v.a3 ^^^ v.a0)))
  omega

theorem unconvert_inv_mix (u : FipsWord) (hu : u.ok) :
    unconvert_word (le_word (InvMixColumn u)) = le_word u := by
  rw [unconvert_word_le_word _ (InvMixColumn_ok u hu)]
  obtain ⟨e0, e1, e2, e3⟩ := mix_inv_abstract xtime xtime_xor u.a0 u.a1 u.a2 u.a3
    (InvMixColumn u).a0 (InvMixColumn u).a1 (InvMixColumn u).a2 (InvMixColumn u).a3
    (by simp only [InvMixColumn, gf_mul_0e, gf_mul_0b, gf_mul_0d, gf_mul_09])
    (by simp only [InvMixColumn, gf_mul_0e, gf_mul_0b, gf_mul_0d, gf_mul_09])
    (by simp only [InvMixColumn, gf_mul_0e, gf_mul_0b, gf_mul_0d, gf_mul_09])
    (by simp only [InvMixColumn, gf_mul_0e, gf_mul_0b, gf_mul_0d, gf_mul_09])
  rw [e0, e1, e2, e3]

/-! ## The loop of `unconvert_key` -/

theorem unconvert_loop_length (n p : Nat) (k : List Nat) :
    (unconvert_loop n p k).length = k.length := by
  induction n generalizing p k with
  | zero => rfl
  | succ n ih => rw [unconvert_loop, ih, List.length_set]

theorem unconvert_loop_getD (n p : Nat) (k : List Nat) (j : Nat) :
    (unconvert_loop n p k).getD j 0
      = if p ≤ j ∧ j < p + n ∧ j < k.length then unconvert_word (k.getD j 0)
        else k.getD j 0 := by
  induction n generalizing p k with
  | zero =>
    rw [unconvert_loop, if_neg (by omega)]
  | succ n ih =>
    rw [unconvert_loop, ih, List.length_set, getD_set]
    by_cases hj : p = j
    · subst hj
      have c1 : ¬ (p + 1 ≤ p ∧ p < p + 1 + n ∧ p < k.length) := by omega
      by_cases hl : p < k.length
      · have c2 : p ≤ p ∧ p < p + (n + 1) ∧ p < k.length := by omega
        rw [if_neg c1, if_pos ⟨rfl, hl⟩, if_pos c2]
      · have c2 : ¬ (p ≤ p ∧ p < p + (n + 1) ∧ p < k.length) := by omega
        rw [if_neg c1, if_neg (fun h => hl h.2), if_neg c2]
    · have c0 : ¬ (p = j ∧ j < k.length) := fun h => hj h.1
      simp only [if_neg c0]
      by_cases hc : p + 1 ≤ j ∧ j < p + 1 + n ∧ j < k.length
      · have c2 : p ≤ j ∧ j < p + (n + 1) ∧ j < k.length := by omega
        rw [if_pos hc, if_pos c2]
      · have c2 : ¬ (p ≤ j ∧ j < p + (n + 1) ∧ j < k.length) := by omega
        rw [if_neg hc, if_neg c2]

theorem unconvert_key_length (k : List Nat) (rounds : Nat) :
    (unconvert_key k rounds).length = k.length :=
  unconvert_loop_length _ _ _

theorem unconvert_key_getD (k : List Nat) (hk : k.length = 44) (j : Nat) :
    (unconvert_key k 10).getD j 0
      = if 4 ≤ j ∧ j ≤ 39 then unconvert_word (k.getD j 0) else k.getD j 0 := by
  unfold unconvert_key
  rw [unconvert_loop_getD]
  by_cases h : 4 ≤ j ∧ j ≤ 39
  · rw [if_pos h, if_pos (by omega)]
  · rw [if_neg h, if_neg (by omega)]

theorem unconvert_inv_mix_word (w : Nat) (hw : w < 2 ^ 32) :
    unconvert_word (inv_mix_word w) = w := by
  unfold inv_mix_word
  rw [unconvert_inv_mix _ (word_bytes_ok w), le_word_bytes w hw]

theorem inv_mix_rounds_getD (S : List Nat) (j : Nat) (hj : j < S.length) :
    (inv_mix_rounds S).getD j 0
      = if 4 ≤ j ∧ j ≤ 39 then inv_mix_word (S.getD j 0) else S.getD j 0 := by
  simp [inv_mix_rounds, List.getD_eq_getElem?_getD, List.getElem?_map, List.getElem?_range hj]

/-- Function `unconvert_key(., 10)` undoes `InvMixColumns` on rounds 1..9 of any array of 44
32-bit words. -/
theorem unconvert_inv_mix_rounds (S : List Nat) (hS : S.length = 44)
    (hw : ∀ j, S.getD j 0 < 2 ^ 32) : unconvert_key (inv_mix_rounds S) 10 = S := by
  have hl : (inv_mix_rounds S).length = 44 := by simp [inv_mix_rounds, hS]
  apply list_ext_getD _ _ (by rw [unconvert_key_length, hl, hS])
  intro j hj
  rw [unconvert_key_length, hl] at hj
  rw [unconvert_key_getD _ hl, inv_mix_rounds_getD S j (by omega)]
  by_cases h : 4 ≤ j ∧ j ≤ 39
  · rw [if_pos h, if_pos h, unconvert_inv_mix_word _ (hw j)]
  · rw [if_neg h, if_neg h]

/-! ## The schedules of the scenarios -/

theorem fips_key_128_ok : is_key 16 fips_key_128 := by decide

theorem fips_key_256_ok : is_key 32 fips_key_256 := by decide

theorem zero_key_256_ok : is_key 32 zero_key_256 := by decide

theorem s4_length : s4_schedule.length = 176 := by
  rw [s4_schedule, schedule_bytes_length, KeyExpansion_length _ 4 10 (by omega)]

theorem s4_words : (List.range 44).map (word_at s4_schedule 0) = aes128_words fips_key_128 :=
  words_schedule_bytes _ 44 (KeyExpansion_length _ 4 10 (by omega))

theorem s4_window_ok : window_reject s4_schedule 0 = false :=
  window_accept_of_hist _ _ (by decide!)

theorem s1_length : s1_image.length = 240 := by
  rw [s1_image, schedule_bytes_length, KeyExpansion_length _ 8 14 (by omega)]

theorem s1_residual_sum : residual_sum_256 (word_at s1_image 0) = 0 := by
  rw [residual_sum_256_congr (word_at s1_image 0) (as_map (aes256_words zero_key_256))
    (fun k hk => by
      rw [s1_image, word_at_schedule_bytes _ k
        (by rw [KeyExpansion_length _ 8 14 (by omega)]; omega), aes256_words, as_map_words]),
    residual_sum_256_canonical _ zero_key_256_ok.2]

theorem s4_padded_words :
    (List.range 44).map (word_at (s4_schedule ++ List.replicate 65 0) 0)
      = aes128_words fips_key_128 := by
  have h := words_embed [] s4_schedule (List.replicate 65 0) (Nat.le_of_eq s4_length.symm)
  rw [List.nil_append, List.length_nil] at h
  rw [h, s4_words]

theorem s4_padded_window_ok :
    window_reject (s4_schedule ++ List.replicate 65 0) 0 = false := by
  have h := window_reject_embed [] s4_schedule (List.replicate 65 0) s4_length
  rw [List.nil_append, List.length_nil] at h
  rw [h, s4_window_ok]

theorem s4_padded_length : (s4_schedule ++ List.replicate 65 0).length = 241 := by
  rw [List.length_append, s4_length, List.length_replicate]

theorem s4_padded_no_256 : check_256 (s4_schedule ++ List.replicate 65 0) 0 0 = [] := by
  decide!

/-- C1 (self-recognition, AES-128): for every 16-byte key, when the 44 words handed to the
AES-128 distance evaluator are the FIPS-197 expanded schedule of the key read as little-endian
words, each of the 40 residual words (rows 1..10, columns 0..3) is zero and `xor_count_128`
ends at 0, whatever the threshold. -/
theorem self_recognition_128 (key : List Nat) (hkey : is_key 16 key) :
    (∀ row column, 1 ≤ row → row ≤ 10 → column ≤ 3 →
      residual_128 (as_map (aes128_words key)) row column = 0) ∧
    ∀ gThreshold : Int, xor_count_128 (as_map (aes128_words key)) gThreshold = 0 := by
  have hres := residual_128_of_rel (as_map (aes128_words key)) (aes128_rel key hkey.2)
  refine ⟨hres, fun t => ?_⟩
  exact rows_128_zero _ t 10 1 (fun r c h1 h2 hc => hres r c h1 (by omega) hc)

theorem self_recognition_128_witness :
    is_key 16 fips_key_128 ∧ xor_count_128 (as_map (aes128_words fips_key_128)) 0 = 0 :=
  ⟨fips_key_128_ok, (self_recognition_128 fips_key_128 fips_key_128_ok).2 0⟩

/-- C2 (self-recognition, AES-256): for every 32-byte key, when the 60 words handed to the
AES-256 distance evaluator are the FIPS-197 expanded schedule of the key (15 round keys, 240
bytes) read as little-endian words, each of the 52 residual words (rows 1..6 columns 0..7,
row 7 columns 0..3) is zero, `xor_count_256` ends at 0, and the test
`xor_count_256 <= gThreshold` passes for every threshold `>= 0`. -/
theorem self_recognition_256 (key : List Nat) (hkey : is_key 32 key) :
    (∀ row column, 1 ≤ row → row ≤ 7 → column ≤ 7 → (row = 7 → column ≤ 3) →
      residual_256 (as_map (aes256_words key)) row column = 0) ∧
    (∀ gThreshold : Int, xor_count_256 (as_map (aes256_words key)) gThreshold = 0) ∧
    ∀ gThreshold : Int, 0 ≤ gThreshold →
      xor_count_256 (as_map (aes256_words key)) gThreshold ≤ gThreshold := by
  have hres := residual_256_of_rel (as_map (aes256_words key)) (aes256_rel key hkey.2)
  have hz : ∀ t : Int, xor_count_256 (as_map (aes256_words key)) t = 0 := fun t =>
    rows_256_zero _ t 7 1 (fun r c h1 h2 hc h7 => hres r c h1 (by omega) hc h7)
  exact ⟨hres, hz, fun t ht => by rw [hz t]; exact ht⟩

theorem self_recognition_256_witness :
    is_key 32 fips_key_256 ∧ xor_count_256 (as_map (aes256_words fips_key_256)) 0 = 0 :=
  ⟨fips_key_256_ok, (self_recognition_256 fips_key_256 fips_key_256_ok).2.1 0⟩

/-- C4 (the threshold as the maximum number of bit errors allowed): evaluation of the code
where the claim fails.  For every image, offset and tweak, when `gThreshold` equals the sum of
the popcounts of the 40 residual words of the working buffer, the test
`xor_count_128 < gThreshold` fails and `print_key` is not called.  In particular, for the
image made of the error-free FIPS-197 schedule and 65 zero bytes at threshold 0: the window at
offset 0 passes the entropy test, the working buffer under mask 0 is the schedule with
residual sum 0, and nothing is reported. -/
theorem threshold_equal_not_reported_128 :
    (∀ (bmap : List Nat) (i tweaks : Nat),
      check_128 bmap (residual_sum_128 (as_map (tweak_map bmap i tweaks))) i tweaks = []) ∧
    window_reject (s4_schedule ++ List.replicate 65 0) 0 = false ∧
    tweak_map (s4_schedule ++ List.replicate 65 0) 0 0 = aes128_words fips_key_128 ∧
    residual_sum_128 (as_map (tweak_map (s4_schedule ++ List.replicate 65 0) 0 0)) = 0 ∧
    check_128 (s4_schedule ++ List.replicate 65 0) 0 0 0 = [] ∧
    aeskeyfind (s4_schedule ++ List.replicate 65 0) 0 = some [] := by
  have h : ∀ (bmap : List Nat) (i tweaks : Nat),
      check_128 bmap (residual_sum_128 (as_map (tweak_map bmap i tweaks))) i tweaks = [] := by
    intro bmap i tweaks
    rw [check_128_eq, if_neg (by omega)]
  have hm : tweak_map (s4_schedule ++ List.replicate 65 0) 0 0 = aes128_words fips_key_128 := by
    rw [tweak_map_zero, s4_padded_words]
  have hz : residual_sum_128 (as_map (tweak_map (s4_schedule ++ List.replicate 65 0) 0 0))
      = 0 := by
    rw [hm]
    exact residual_sum_128_canonical _ fips_key_128_ok.2
  refine ⟨h, s4_padded_window_ok, hm, hz, check_128_zero _ _ _, ?_⟩
  apply aeskeyfind_one_offset _ _ s4_padded_length
  rw [scan_offset_eq, s4_padded_no_256, check_128_zero, check_128_zero, check_128_zero,
    check_128_zero]
  rfl

/-- C5 (scenario S4): evaluation of the code where the claim fails.  For every image made of
100 bytes, the 176-byte FIPS-197 schedule of key `2b7e151628aed2a6abf7158809cf4f3c` and 100
more bytes, the window at offset 100 passes the entropy test and its working buffer under
tweak mask 0 is the schedule with residual sum 0, yet at threshold 0 `find_keys` makes no
128-bit report at all (the test is `xor_count_128 < gThreshold`); from threshold 1 on the
report at offset 100 under mask 0 is made. -/
theorem s4_not_reported_at_threshold_zero (pre suf : List Nat) (hp : pre.length = 100)
    (hs : suf.length = 100) :
    window_reject (pre ++ s4_schedule ++ suf) 100 = false ∧
    tweak_map (pre ++ s4_schedule ++ suf) 100 0 = aes128_words fips_key_128 ∧
    residual_sum_128 (as_map (aes128_words fips_key_128)) = 0 ∧
    (find_keys (pre ++ s4_schedule ++ suf) ((pre ++ s4_schedule ++ suf).length - 240) 0).all
      (fun r => r.num_bits != 128) = true ∧
    ∀ gThreshold : Int, 1 ≤ gThreshold →
      (⟨aes128_words fips_key_128, 128, 100, 0⟩ : KeyReport) ∈
        find_keys (pre ++ s4_schedule ++ suf) ((pre ++ s4_schedule ++ suf).length - 240)
          gThreshold := by
  have hS := s4_length
  have hw : window_reject (pre ++ s4_schedule ++ suf) 100 = false := by
    rw [← hp, window_reject_embed pre _ suf hS]
    exact s4_window_ok
  have hm : tweak_map (pre ++ s4_schedule ++ suf) 100 0 = aes128_words fips_key_128 := by
    rw [tweak_map_zero, ← hp, words_embed pre _ suf (by omega)]
    exact s4_words
  have hz := residual_sum_128_canonical _ fips_key_128_ok.2
  refine ⟨hw, hm, hz, scan_loop_zero _ _ _ _, fun t ht => ?_⟩
  rw [mem_find_keys _ _ _ (by simp only [List.length_append]; omega)]
  refine ⟨100, by simp only [List.length_append]; omega, hw, ?_⟩
  rw [scan_offset_eq, check_128_eq, hm, hz, if_pos (by omega)]
  simp

theorem s4_not_reported_at_threshold_zero_witness :
    (List.replicate 100 0).length = 100 ∧
    (find_keys (List.replicate 100 0 ++ s4_schedule ++ List.replicate 100 0)
      ((List.replicate 100 0 ++ s4_schedule ++ List.replicate 100 0).length - 240) 0).all
      (fun r => r.num_bits != 128) = true :=
  ⟨List.length_replicate 100 0,
    (s4_not_reported_at_threshold_zero (List.replicate 100 0) (List.replicate 100 0)
      (List.length_replicate 100 0) (List.length_replicate 100 0)).2.2.2.1⟩

/-- C6 (scenario S1), counterexample: the image made of exactly the 240 bytes of the AES-256
schedule of the all-zero key is accepted by the length guard, and scanning it with threshold 0
makes no report. -/
theorem s1_no_match : s1_image.length = 240 ∧ aeskeyfind s1_image 0 = some [] := by
  have h := s1_length
  refine ⟨h, ?_⟩
  unfold aeskeyfind
  rw [if_neg (by omega), h]
  rfl

/-- C6 (scenario S1), amended: the 240-byte AES-256 schedule of the all-zero key has all its
residuals zero (`xor_count_256 = 0` at threshold 0) and the key line of its table is 8 zero
words, but its first 176 bytes hold the byte `0x00` more than 8 times.  Scanning the image
made of exactly these bytes with threshold 0 makes no report, and wherever the schedule lies
in a larger image the entropy test rejects its window, so no report is made at its offset at
any threshold. -/
theorem s1_rejected_by_entropy :
    aeskeyfind s1_image 0 = some [] ∧
    xor_count_256 (word_at s1_image 0) 0 = 0 ∧
    key_line ⟨(List.range 60).map (word_at s1_image 0), 256, 0, 0⟩ = List.replicate 8 0 ∧
    (window s1_image 0).count 0 > 8 ∧
    ∀ (pre suf : List Nat) (gThreshold : Int),
      (find_keys (pre ++ s1_image ++ suf) ((pre ++ s1_image ++ suf).length - 240)
        gThreshold).all (fun r => r.address != pre.length) = true := by
  have hlen := s1_length
  have hc : (s1_image.take 176).count 0 > 8 := by decide!
  have h0 : aeskeyfind s1_image 0 = some [] := by
    unfold aeskeyfind
    rw [if_neg (by omega), hlen]
    rfl
  have hx : xor_count_256 (word_at s1_image 0) 0 = 0 := by
    rw [xor_count_256_full _ 0 (by rw [s1_residual_sum]; decide), s1_residual_sum]
    rfl
  refine ⟨h0, hx, by decide!, by decide!, fun pre suf t => ?_⟩
  apply no_report_at_rejected _ _ _ (by simp only [List.length_append]; omega)
  unfold window_reject
  rw [window_embed_take pre _ suf (by omega), List.any_eq_true]
  exact ⟨0, List.mem_range.2 (by omega), by simpa using hc⟩

/-- C7 (entropy rejection suppresses all output): for every image of length at least 240 and
every threshold, if each scanned 176-byte window `bmap[i .. i+176)`, `i < len - 240`, holds
some byte value more than 8 times, `find_keys` makes no report at all; in particular 4096
zero bytes at threshold 10 give no match. -/
theorem entropy_rejection_no_match :
    (∀ (image : List Nat) (gThreshold : Int), 240 ≤ image.length → is_image image →
      (∀ i, i < image.length - 240 → ∃ b, (window image i).count b > 8) →
      aeskeyfind image gThreshold = some []) ∧
    aeskeyfind (List.replicate 4096 0) 10 = some [] := by
  refine ⟨no_match_of_all_reject, ?_⟩
  apply no_match_of_all_reject
  · simp only [List.length_replicate]; omega
  · intro b hb
    rw [(List.mem_replicate.1 hb).2]
    decide
  · intro i hi
    simp only [List.length_replicate] at hi
    exact ⟨0, by rw [window_replicate_zero 4096 i (by omega)]; decide⟩

theorem entropy_rejection_no_match_witness :
    240 ≤ (List.replicate 241 0).length ∧ is_image (List.replicate 241 0) ∧
    (window (List.replicate 241 0) 0).count 0 > 8 ∧
    aeskeyfind (List.replicate 241 0) 10 = some [] :=
  have h1 : 240 ≤ (List.replicate 241 0).length := by
    simp only [List.length_replicate]; omega
  have h2 : is_image (List.replicate 241 0) := fun b hb => by
    rw [(List.mem_replicate.1 hb).2]; decide
  have h3 : ∀ i, i < (List.replicate 241 0).length - 240 →
      ∃ b, (window (List.replicate 241 0) i).count b > 8 := fun i hi =>
    ⟨0, by
      rw [window_replicate_zero 241 i (by simp only [List.length_replicate] at hi; omega)]
      decide⟩
  ⟨h1, h2, by rw [window_replicate_zero 241 0 (by omega)]; decide,
    entropy_rejection_no_match.1 (List.replicate 241 0) 10 h1 h2 h3⟩

/-- C8 (InvMixColumn round-trip): for every 16-byte key, applying `unconvert_key(., 10)` to
the canonical AES-128 schedule with `InvMixColumns` applied to each word of rounds 1..9 (word
indices 4..39, byte `a0` least significant) gives back the schedule, word for word and so
byte for byte. -/
theorem inv_mix_round_trip (key : List Nat) (hkey : is_key 16 key) :
    unconvert_key (inv_mix_rounds (aes128_words key)) 10 = aes128_words key :=
  unconvert_inv_mix_rounds _ (aes128_words_length key) (aes128_words_lt key hkey.2)

theorem inv_mix_round_trip_witness :
    is_key 16 fips_key_128 ∧
    unconvert_key (inv_mix_rounds (aes128_words fips_key_128)) 10
      = aes128_words fips_key_128 :=
  ⟨fips_key_128_ok, inv_mix_round_trip fips_key_128 fips_key_128_ok⟩

/-- C9 (decryption-optimised schedules): for every 16-byte key, if the 44 words of the window
at offset `i` are the canonical schedule of the key with `InvMixColumns` applied to every
word of rounds 1..9, then the working buffer built for tweak mask 1 (`TWEAK_INVMIXCOLUMN`
alone) is the canonical schedule and `xor_count_128` on it ends at 0. -/
theorem decryption_schedule_recognised (key : List Nat) (hkey : is_key 16 key)
    (bmap : List Nat) (i : Nat)
    (hwin : (List.range 44).map (word_at bmap i) = inv_mix_rounds (aes128_words key)) :
    tweak_map bmap i 1 = aes128_words key ∧
    ∀ gThreshold : Int, xor_count_128 (as_map (tweak_map bmap i 1)) gThreshold = 0 := by
  have h : tweak_map bmap i 1 = aes128_words key := by
    rw [tweak_map_one, hwin]
    exact unconvert_inv_mix_rounds _ (aes128_words_length key) (aes128_words_lt key hkey.2)
  exact ⟨h, fun t => by rw [h]; exact xor_count_128_canonical key hkey.2 t⟩

theorem decryption_schedule_recognised_witness :
    is_key 16 fips_key_128 ∧
    (List.range 44).map (word_at (words_bytes (inv_mix_rounds (aes128_words fips_key_128))) 0)
      = inv_mix_rounds (aes128_words fips_key_128) ∧
    tweak_map (words_bytes (inv_mix_rounds (aes128_words fips_key_128))) 0 1
      = aes128_words fips_key_128 :=
  have h1 : is_key 16 fips_key_128 := by decide
  have h2 : (List.range 44).map
      (word_at (words_bytes (inv_mix_rounds (aes128_words fips_key_128))) 0)
      = inv_mix_rounds (aes128_words fips_key_128) := by decide!
  ⟨h1, h2, (decryption_schedule_recognised fips_key_128 h1 _ 0 h2).1⟩

/-- C10 (reverse-order recognition): for every image and offset, the working buffer built for
tweak mask 2 (`TWEAK_REVERSE_ORDER` alone) has 44 words and its row `r` is row `10 - r` of
the window, for every `r` in 0..10 (the window is a read-only input of the copy); hence for
every 16-byte key, a window holding the canonical schedule with its 11 round keys in the
opposite order gives `xor_count_128 = 0` under mask 2. -/
theorem reverse_order_recognised :
    (∀ (bmap : List Nat) (i r c : Nat), r ≤ 10 → c ≤ 3 →
      (tweak_map bmap i 2).length = 44 ∧
      (tweak_map bmap i 2).getD (4 * r + c) 0 = word_at bmap i (4 * (10 - r) + c)) ∧
    (∀ (key : List Nat), is_key 16 key → ∀ (bmap : List Nat) (i : Nat),
      (List.range 44).map (word_at bmap i) = reverse_round_keys (aes128_words key) →
      ∀ gThreshold : Int, xor_count_128 (as_map (tweak_map bmap i 2)) gThreshold = 0) := by
  constructor
  · intro bmap i r c hr hc
    rw [tweak_map_two]
    refine ⟨by simp, ?_⟩
    have e := as_map_range (fun k => word_at bmap i (4 * (10 - k / 4) + k % 4)) 44 (4 * r + c)
      (by omega)
    unfold as_map at e
    rw [e]
    show word_at bmap i (4 * (10 - (4 * r + c) / 4) + (4 * r + c) % 4) = _
    have e1 : (4 * r + c) / 4 = r := by omega
    have e2 : (4 * r + c) % 4 = c := by omega
    simp only [e1, e2]
  · intro key hkey bmap i hwin t
    rw [tweak_map_two_reversed _ (aes128_words_length key) bmap i hwin]
    exact xor_count_128_canonical key hkey.2 t

theorem reverse_order_recognised_witness :
    is_key 16 fips_key_128 ∧
    (List.range 44).map
        (word_at (words_bytes (reverse_round_keys (aes128_words fips_key_128))) 0)
      = reverse_round_keys (aes128_words fips_key_128) ∧
    xor_count_128
      (as_map (tweak_map (words_bytes (reverse_round_keys (aes128_words fips_key_128))) 0 2))
      10 = 0 :=
  have h1 : is_key 16 fips_key_128 := by decide
  have h2 : (List.range 44).map
      (word_at (words_bytes (reverse_round_keys (aes128_words fips_key_128))) 0)
      = reverse_round_keys (aes128_words fips_key_128) := by decide!
  ⟨h1, h2, reverse_order_recognised.2 fips_key_128 h1 _ 0 h2 10⟩


/-! ## Order and addresses of the reports -/

theorem scan_offset_pairwise (bmap : List Nat) (t : Int) (i : Nat) :
    (scan_offset bmap t i).Pairwise emitted_before := by
  rw [scan_offset_eq, check_256_eq, check_128_eq, check_128_eq, check_128_eq, check_128_eq]
  split_ifs <;> simp [emitted_before, report_rank]

theorem scan_offset_kind (bmap : List Nat) (t : Int) (i : Nat) (r : KeyReport)
    (h : r ∈ scan_offset bmap t i) :
    (r.num_bits = 256 ∧ r.tweaks = 0) ∨ (r.num_bits = 128 ∧ r.tweaks < 4) := by
  rw [scan_offset_eq, check_256_eq, check_128_eq, check_128_eq, check_128_eq, check_128_eq] at h
  simp only [List.mem_append] at h
  rcases h with h | h | h | h | h <;> split_ifs at h <;> simp at h <;> subst h <;> simp

theorem scan_loop_address (bmap : List Nat) (t : Int) (n : Nat) :
    ∀ (i : Nat) (st : EntropyState) (r : KeyReport), r ∈ scan_loop bmap t n i st →
      i ≤ r.address ∧ r.address < i + n := by
  induction n with
  | zero => intro i st r h; simp [scan_loop] at h
  | succ n ih =>
    intro i st r h
    simp only [scan_loop, List.mem_append] at h
    rcases h with h | h
    · split_ifs at h
      · simp at h
      · rw [scan_offset_address bmap t i r h]; omega
    · have := ih _ _ r h
      omega

theorem scan_loop_kind (bmap : List Nat) (t : Int) (n : Nat) :
    ∀ (i : Nat) (st : EntropyState) (r : KeyReport), r ∈ scan_loop bmap t n i st →
      (r.num_bits = 256 ∧ r.tweaks = 0) ∨ (r.num_bits = 128 ∧ r.tweaks < 4) := by
  induction n with
  | zero => intro i st r h; simp [scan_loop] at h
  | succ n ih =>
    intro i st r h
    simp only [scan_loop, List.mem_append] at h
    rcases h with h | h
    · split_ifs at h
      · simp at h
      · exact scan_offset_kind bmap t i r h
    · exact ih _ _ r h

theorem scan_loop_pairwise (bmap : List Nat) (t : Int) (n : Nat) :
    ∀ (i : Nat) (st : EntropyState), (scan_loop bmap t n i st).Pairwise emitted_before := by
  induction n with
  | zero => intro i st; simp [scan_loop]
  | succ n ih =>
    intro i st
    simp only [scan_loop]
    rw [List.pairwise_append]
    refine ⟨?_, ih _ _, fun a ha b hb => ?_⟩
    · split_ifs
      · exact List.Pairwise.nil
      · exact scan_offset_pairwise bmap t i
    · split_ifs at ha
      · simp at ha
      · have h1 := scan_offset_address bmap t i a ha
        have h2 := scan_loop_address bmap t n _ _ b hb
        exact Or.inl (by omega)

theorem scan_loop_log_fst (bmap : List Nat) (t : Int) (n : Nat) :
    ∀ (i : Nat) (st : EntropyState),
      (scan_loop_log bmap t n i st).1 = scan_loop bmap t n i st := by
  induction n with
  | zero => intro i st; rfl
  | succ n ih => intro i st; simp only [scan_loop_log, scan_loop, ih]

theorem scan_loop_log_snd (bmap : List Nat) (t : Int) (n : Nat) :
    ∀ (i : Nat) (st : EntropyState),
      (scan_loop_log bmap t n i st).2 = List.range' i n := by
  induction n with
  | zero => intro i st; rfl
  | succ n ih => intro i st; simp only [scan_loop_log, ih, List.range']

/-! ## The claims, continued -/

/-- C15 (short-circuiting never changes the decision): for every word array and every
threshold, the AES-256 evaluator with its early exit ends with `xor_count_256 <= gThreshold`
exactly when the popcount sum of all 52 residual words is at most the threshold, and the
AES-128 evaluator ends with `xor_count_128 < gThreshold` exactly when the popcount sum of all
40 residual words is below the threshold; hence at every offset the 256-bit report is made
exactly in the first case and the 128-bit report of a tweak buffer exactly in the second. -/
theorem short_circuit_keeps_decision (map : Nat → Nat) (bmap : List Nat) (i tweaks : Nat)
    (gThreshold : Int) :
    (xor_count_256 map gThreshold ≤ gThreshold ↔ (residual_sum_256 map : Int) ≤ gThreshold) ∧
    (xor_count_128 map gThreshold < gThreshold ↔ (residual_sum_128 map : Int) < gThreshold) ∧
    (check_256 bmap gThreshold i ≠ [] ↔
      (residual_sum_256 (word_at bmap i) : Int) ≤ gThreshold) ∧
    (check_128 bmap gThreshold i tweaks ≠ [] ↔
      (residual_sum_128 (as_map (tweak_map bmap i tweaks)) : Int) < gThreshold) := by
  refine ⟨match_256_iff map gThreshold, match_128_iff map gThreshold, ?_, ?_⟩
  · rw [check_256_eq]; split_ifs with h <;> simp [h]
  · rw [check_128_eq]; split_ifs with h <;> simp [h]

/-- C12 (match ordering): for every image, scan bound and threshold, the calls of `print_key`
are made in strictly ascending order of (offset, rank), where the AES-256 report of an offset
has rank 0 and the AES-128 report under tweak mask `m` has rank `m + 1`: offsets ascend, at
one offset the AES-256 report precedes every AES-128 report, the AES-128 reports come in the
mask order 0, 1, 2, 3, and no (offset, rank) pair occurs twice.  Every report is a 256-bit one
or a 128-bit one with a mask below 4. -/
theorem match_ordering (bmap : List Nat) (last : Nat) (gThreshold : Int) :
    (find_keys bmap last gThreshold).Pairwise emitted_before ∧
    (find_keys bmap last gThreshold).all (fun r =>
      decide ((r.num_bits = 256 ∧ r.tweaks = 0) ∨ (r.num_bits = 128 ∧ r.tweaks < 4))) = true := by
  refine ⟨scan_loop_pairwise bmap gThreshold last 0 entropy_start, ?_⟩
  rw [List.all_eq_true]
  intro r hr
  exact decide_eq_true (scan_loop_kind bmap gThreshold last 0 entropy_start r hr)

/-- C13 (scan coverage): for every image of length `L >= 240` and every threshold, the run
hands to `entropy` exactly the offsets `0, 1, ..., L - 241` in this order, each one once:
`L - 240` offsets, all below `L - 240`, and the reports are those of `find_keys`. -/
theorem scan_coverage (image : List Nat) (gThreshold : Int) (h : 240 ≤ image.length) :
    aeskeyfind_log image gThreshold
      = some (find_keys image (image.length - 240) gThreshold,
          List.range (image.length - 240)) ∧
    (find_keys_log image (image.length - 240) gThreshold).2.length = image.length - 240 ∧
    (find_keys_log image (image.length - 240) gThreshold).2.Nodup ∧
    (find_keys_log image (image.length - 240) gThreshold).2.Pairwise (fun a b => a < b) ∧
    (find_keys_log image (image.length - 240) gThreshold).2.all
      (fun i => decide (i < image.length - 240)) = true := by
  have h2 : (find_keys_log image (image.length - 240) gThreshold).2
      = List.range (image.length - 240) := by
    rw [find_keys_log, scan_loop_log_snd, List.range_eq_range']
  have h1 : (find_keys_log image (image.length - 240) gThreshold).1
      = find_keys image (image.length - 240) gThreshold := scan_loop_log_fst _ _ _ _ _
  refine ⟨?_, ?_, ?_, ?_, ?_⟩
  · rw [aeskeyfind_log, if_neg (by omega), ← h1, ← h2]
  · rw [h2, List.length_range]
  · rw [h2]; exact List.nodup_range _
  · rw [h2]; exact List.pairwise_lt_range _
  · rw [h2, List.all_eq_true]
    intro i hi
    exact decide_eq_true (List.mem_range.1 hi)

theorem scan_coverage_witness :
    240 ≤ (List.replicate 300 0).length ∧
    aeskeyfind_log (List.replicate 300 0) 0
      = some (find_keys (List.replicate 300 0) ((List.replicate 300 0).length - 240) 0,
          List.range ((List.replicate 300 0).length - 240)) :=
  ⟨by simp only [List.length_replicate]; omega,
    (scan_coverage (List.replicate 300 0) 0 (by simp only [List.length_replicate]; omega)).1⟩


/-! ## The histogram at the decision -/

theorem entropy_decision (st : EntropyState) (bmap : List Nat) (i : Nat) :
    (entropy st bmap i).1 = freq_test (decision_freq st bmap) := rfl

theorem entropy_after_tracks (bmap : List Nat) (i : Nat) (h : i + 176 < bmap.length) :
    tracks (entropy_after bmap (i + 1)) bmap (i + 1) := by
  induction i with
  | zero => exact (entropy_first bmap (by omega)).2
  | succ i ih => exact (entropy_next _ bmap (i + 1) h (ih (by omega))).2

theorem decision_freq_count (bmap : List Nat) (i : Nat) (h : i + 176 < bmap.length) (b : Nat) :
    decision_freq (entropy_after bmap i) bmap b = (((window bmap i).count b : Nat) : Int) := by
  cases i with
  | zero =>
    have := fill_freq_count bmap 176 0 (fun _ => 0) (by omega) b
    simpa [decision_freq, entropy_after, entropy_start, window] using this
  | succ i =>
    obtain ⟨h1, h2⟩ := entropy_after_tracks bmap i (by omega)
    rw [decision_freq, h1]
    exact h2 b

theorem entropy_after_verdict (bmap : List Nat) (i : Nat) (h : i + 176 < bmap.length) :
    (entropy (entropy_after bmap i) bmap i).1 = window_reject bmap i := by
  rw [entropy_decision, ← freq_test_window]
  exact freq_test_congr _ _ (decision_freq_count bmap i h)

theorem sum_indicator (a n : Nat) :
    ((List.range n).map (fun b => if a = b then 1 else 0)).sum = if a < n then 1 else 0 := by
  induction n with
  | zero => simp
  | succ n ih =>
    rw [List.sum_range_succ, ih]
    by_cases h1 : a < n
    · simp [h1, Nat.ne_of_lt h1, Nat.lt_succ_of_lt h1]
    · by_cases h2 : a = n
      · simp [h2]
      · have : ¬ a < n + 1 := by omega
        simp [h1, h2, this]

theorem sum_count_range (w : List Nat) (n : Nat) (h : ∀ x ∈ w, x < n) :
    ((List.range n).map (fun b => w.count b)).sum = w.length := by
  induction w with
  | nil => simp
  | cons a w ih =>
    have e : (fun b => (a :: w).count b) = fun b => w.count b + (if a = b then 1 else 0) := by
      funext b
      rw [List.count_cons]
      by_cases hab : a = b <;> simp [hab]
    rw [e, List.sum_map_add, ih (fun x hx => h x (List.mem_cons_of_mem _ hx)), sum_indicator,
      if_pos (h a (List.mem_cons_self _ _)), List.length_cons]

theorem window_length (bmap : List Nat) (i : Nat) (h : i + 176 ≤ bmap.length) :
    (window bmap i).length = 176 := by
  simp only [window, List.length_take, List.length_drop]
  omega

theorem window_bytes (bmap : List Nat) (hb : is_image bmap) (i : Nat) :
    ∀ x ∈ window bmap i, x < 256 :=
  fun x hx => hb x (List.mem_of_mem_drop (List.mem_of_mem_take hx))

theorem window_reject_iff (bmap : List Nat) (i : Nat) :
    window_reject bmap i = true ↔ ∃ b, b < 256 ∧ (window bmap i).count b > 8 := by
  unfold window_reject
  rw [List.any_eq_true]
  constructor
  · rintro ⟨b, hb, h⟩
    exact ⟨b, List.mem_range.1 hb, by simpa using h⟩
  · rintro ⟨b, hb, h⟩
    exact ⟨b, List.mem_range.2 hb, by simpa using h⟩

theorem s4_one_image : is_image (s4_schedule ++ [0]) := by decide!

theorem s4_one_length : 0 + 176 < (s4_schedule ++ [0]).length := by decide!

/-- C16 (the sliding histogram equals the naive count): on an image of bytes, when `entropy`
has been called for the offsets `0, 1, ..., i-1` in this order and is called for offset `i`
with `i + 176 < len`, the histogram it tests holds for every byte value `b` the number of
occurrences of `b` in `bmap[i .. i+176)`; its counters are non-negative, those of the byte
values 0..255 sum to 176, and the call returns true exactly when some byte value occurs more
than 8 times among these 176 bytes. -/
theorem sliding_histogram_is_count (bmap : List Nat) (i : Nat) (hb : is_image bmap)
    (h : i + 176 < bmap.length) :
    (∀ b, decision_freq (entropy_after bmap i) bmap b
      = (((window bmap i).count b : Nat) : Int)) ∧
    (∀ b, 0 ≤ decision_freq (entropy_after bmap i) bmap b) ∧
    ((List.range 256).map (decision_freq (entropy_after bmap i) bmap)).sum = 176 ∧
    (window bmap i).length = 176 ∧
    ((entropy (entropy_after bmap i) bmap i).1 = true ↔
      ∃ b, b < 256 ∧ (window bmap i).count b > 8) := by
  have hc := decision_freq_count bmap i h
  refine ⟨hc, fun b => ?_, ?_, window_length bmap i (by omega), ?_⟩
  · rw [hc b]; exact Int.ofNat_nonneg _
  · have e : decision_freq (entropy_after bmap i) bmap
        = fun b => (((window bmap i).count b : Nat) : Int) := funext hc
    have s := sum_count_range (window bmap i) 256 (window_bytes bmap hb i)
    rw [window_length bmap i (by omega)] at s
    rw [e]
    have c : ((((List.range 256).map (fun b => (window bmap i).count b)).sum : Nat) : Int)
        = (((List.range 256).map (fun b => (window bmap i).count b)).map Nat.cast).sum :=
      Nat.cast_list_sum _
    rw [s, List.map_map] at c
    exact c.symm
  · rw [entropy_after_verdict bmap i h, window_reject_iff]

theorem sliding_histogram_is_count_witness :
    is_image (s4_schedule ++ [0]) ∧ 0 + 176 < (s4_schedule ++ [0]).length ∧
    ((entropy (entropy_after (s4_schedule ++ [0]) 0) (s4_schedule ++ [0]) 0).1 = true ↔
      ∃ b, b < 256 ∧ (window (s4_schedule ++ [0]) 0).count b > 8) :=
  ⟨s4_one_image, s4_one_length,
    (sliding_histogram_is_count (s4_schedule ++ [0]) 0 s4_one_image s4_one_length).2.2.2.2⟩


/-! ## Canonical schedules inside an image and the trailing offsets -/

theorem schedule_128_length (key : List Nat) :
    (schedule_bytes (KeyExpansion key 4 10)).length = 176 := by
  rw [schedule_bytes_length, KeyExpansion_length _ 4 10 (by omega)]

theorem schedule_256_length (key : List Nat) :
    (schedule_bytes (KeyExpansion key 8 14)).length = 240 := by
  rw [schedule_bytes_length, KeyExpansion_length _ 8 14 (by omega)]

theorem embedded_schedule_sum (key pre suf : List Nat) (hk : is_key 16 key) :
    residual_sum_128
      (word_at (pre ++ schedule_bytes (KeyExpansion key 4 10) ++ suf) pre.length) = 0 := by
  rw [residual_sum_128_congr _ (as_map (aes128_words key)) (fun k hk4 => by
      rw [word_at_embed pre _ suf k (by rw [schedule_128_length]; omega),
        word_at_schedule_bytes _ k (by rw [KeyExpansion_length _ 4 10 (by omega)]; omega),
        aes128_words, as_map_words]),
    residual_sum_128_canonical _ hk.2]

theorem find_keys_address (bmap : List Nat) (last : Nat) (t : Int) (r : KeyReport)
    (h : r ∈ find_keys bmap last t) : r.address < last := by
  have := scan_loop_address bmap t last 0 entropy_start r h
  omega

theorem zero_schedule_128_count : zero_schedule_128.count 0 > 8 := by decide!

/-- C11, counterexample: the all-zero AES-128 key.  Its canonical schedule starts with 16
zero bytes, so on the 241-byte image that holds this schedule at offset 0 the entropy filter
returns true for the window of the schedule, and the scan reports nothing at any threshold. -/
theorem zero_key_128_filtered :
    is_key 16 zero_key_128 ∧
    window (zero_schedule_128 ++ List.replicate 65 0) 0
      = schedule_bytes (KeyExpansion zero_key_128 4 10) ∧
    (entropy entropy_start (zero_schedule_128 ++ List.replicate 65 0) 0).1 = true ∧
    ∀ gThreshold : Int,
      aeskeyfind (zero_schedule_128 ++ List.replicate 65 0) gThreshold = some [] := by
  have hl : (zero_schedule_128 ++ List.replicate 65 0).length = 241 := by
    rw [List.length_append, zero_schedule_128, schedule_128_length, List.length_replicate]
  have hw : window (zero_schedule_128 ++ List.replicate 65 0) 0 = zero_schedule_128 :=
    window_embed [] zero_schedule_128 (List.replicate 65 0) (schedule_128_length _)
  have hv : (entropy entropy_start (zero_schedule_128 ++ List.replicate 65 0) 0).1 = true := by
    rw [(entropy_first _ (by omega)).1, window_reject_iff, hw]
    exact ⟨0, by omega, zero_schedule_128_count⟩
  refine ⟨by decide, hw, hv, fun t => ?_⟩
  rw [aeskeyfind, if_neg (by omega), hl]
  simp only [find_keys, scan_loop, hv]
  rfl

/-- C11, amended (the filter decides on byte repeats alone): for every 128-bit key, when the
176 bytes of its canonical AES-128 schedule lie in an image at a scanned offset, the entropy
filter returns true for their window exactly when some byte value occurs more than 8 times
among the 176 schedule bytes; when it returns false, the schedule is reported as a 128-bit
match under tweak mask 0 at every threshold above 0. -/
theorem filter_verdict_on_schedule (key pre suf : List Nat) (hk : is_key 16 key)
    (hs : 64 < suf.length) :
    ((entropy (entropy_after (pre ++ schedule_bytes (KeyExpansion key 4 10) ++ suf) pre.length)
        (pre ++ schedule_bytes (KeyExpansion key 4 10) ++ suf) pre.length).1 = true ↔
      ∃ b, b < 256 ∧ (schedule_bytes (KeyExpansion key 4 10)).count b > 8) ∧
    ((entropy (entropy_after (pre ++ schedule_bytes (KeyExpansion key 4 10) ++ suf) pre.length)
        (pre ++ schedule_bytes (KeyExpansion key 4 10) ++ suf) pre.length).1 = false →
      ∀ gThreshold : Int, 0 < gThreshold →
        ∃ r ∈ find_keys (pre ++ schedule_bytes (KeyExpansion key 4 10) ++ suf)
            ((pre ++ schedule_bytes (KeyExpansion key 4 10) ++ suf).length - 240) gThreshold,
          r.num_bits = 128 ∧ r.address = pre.length ∧ r.tweaks = 0) := by
  have hl : (pre ++ schedule_bytes (KeyExpansion key 4 10) ++ suf).length
      = pre.length + 176 + suf.length := by
    rw [List.length_append, List.length_append, schedule_128_length]
  have hv := entropy_after_verdict (pre ++ schedule_bytes (KeyExpansion key 4 10) ++ suf)
    pre.length (by omega)
  refine ⟨?_, fun hf t ht => ?_⟩
  · rw [hv, window_reject_iff, window_embed pre _ suf (schedule_128_length key)]
  · rw [hv] at hf
    exact reported_128 _ t pre.length (by omega) hf
      (by rw [embedded_schedule_sum key pre suf hk]; exact_mod_cast ht)

theorem filter_verdict_on_schedule_witness :
    is_key 16 fips_key_128 ∧ 64 < (List.replicate 65 0).length ∧
    ((entropy (entropy_after ([] ++ schedule_bytes (KeyExpansion fips_key_128 4 10)
          ++ List.replicate 65 0) ([] : List Nat).length)
        ([] ++ schedule_bytes (KeyExpansion fips_key_128 4 10) ++ List.replicate 65 0)
        ([] : List Nat).length).1 = true ↔
      ∃ b, b < 256 ∧ (schedule_bytes (KeyExpansion fips_key_128 4 10)).count b > 8) :=
  ⟨fips_key_128_ok, by simp only [List.length_replicate]; omega,
    (filter_verdict_on_schedule fips_key_128 [] (List.replicate 65 0) fips_key_128_ok
      (by simp only [List.length_replicate]; omega)).1⟩

/-- C20 (trailing windows are never examined): for every image of length `L >= 240` and every
threshold, the program runs `find_keys(image, L - 240)` and every report has an offset below
`L - 240`; so when the image ends with the 240 bytes of the canonical AES-256 schedule of a
key (offset `L - 240`), or holds the 176 bytes of the canonical AES-128 schedule of a key
followed by at most 64 further bytes (an offset in `[L - 240, L - 176]`), no report is made
at the offset of that schedule. -/
theorem trailing_windows_not_examined (image : List Nat) (gThreshold : Int)
    (h : 240 ≤ image.length) :
    aeskeyfind image gThreshold = some (find_keys image (image.length - 240) gThreshold) ∧
    (find_keys image (image.length - 240) gThreshold).all
      (fun r => decide (r.address < image.length - 240)) = true ∧
    (∀ key pre : List Nat, is_key 32 key →
      image = pre ++ schedule_bytes (KeyExpansion key 8 14) →
      pre.length = image.length - 240 ∧
      (find_keys image (image.length - 240) gThreshold).all
        (fun r => r.address != pre.length) = true) ∧
    (∀ key pre suf : List Nat, is_key 16 key → suf.length ≤ 64 →
      image = pre ++ schedule_bytes (KeyExpansion key 4 10) ++ suf →
      image.length - 240 ≤ pre.length ∧ pre.length ≤ image.length - 176 ∧
      (find_keys image (image.length - 240) gThreshold).all
        (fun r => r.address != pre.length) = true) := by
  refine ⟨by rw [aeskeyfind, if_neg (by omega)], ?_, ?_, ?_⟩
  · rw [List.all_eq_true]
    intro r hr
    exact decide_eq_true (find_keys_address _ _ _ r hr)
  · intro key pre _ he
    have hl : image.length = pre.length + 240 := by
      rw [he, List.length_append, schedule_256_length]
    refine ⟨by omega, ?_⟩
    rw [List.all_eq_true]
    intro r hr
    have := find_keys_address _ _ _ r hr
    simp only [bne_iff_ne, ne_eq]
    omega
  · intro key pre suf _ hs he
    have hl : image.length = pre.length + 176 + suf.length := by
      rw [he, List.length_append, List.length_append, schedule_128_length]
    refine ⟨by omega, by omega, ?_⟩
    rw [List.all_eq_true]
    intro r hr
    have := find_keys_address _ _ _ r hr
    simp only [bne_iff_ne, ne_eq]
    omega

theorem trailing_windows_not_examined_witness :
    240 ≤ a3_schedule.length ∧
    aeskeyfind a3_schedule 0 = some (find_keys a3_schedule (a3_schedule.length - 240) 0) ∧
    (find_keys a3_schedule (a3_schedule.length - 240) 0).all
      (fun r => decide (r.address < a3_schedule.length - 240)) = true ∧
    (find_keys a3_schedule (a3_schedule.length - 240) 0).all
      (fun r => r.address != ([] : List Nat).length) = true :=
  have hl : 240 ≤ a3_schedule.length := Nat.le_of_eq (schedule_256_length fips_key_256).symm
  ⟨hl, (trailing_windows_not_examined a3_schedule 0 hl).1,
    (trailing_windows_not_examined a3_schedule 0 hl).2.1,
    ((trailing_windows_not_examined a3_schedule 0 hl).2.2.1 fips_key_256 [] fips_key_256_ok
      (List.nil_append _).symm).2⟩


/-! ## The reverter as the forward column transform -/

theorem unconvert_word_mix (w : Nat) (hw : w < 2 ^ 32) :
    unconvert_word w = le_word (MixColumn (word_bytes w)) := by
  have h := unconvert_word_le_word (word_bytes w) (word_bytes_ok w)
  rw [le_word_bytes w hw] at h
  rw [h]
  simp only [MixColumn, gf_mul_02, gf_mul_03, xtime_xor]
  generalize xtime (word_bytes w).a0 = x0
  generalize xtime (word_bytes w).a1 = x1
  generalize xtime (word_bytes w).a2 = x2
  generalize xtime (word_bytes w).a3 = x3
  generalize (word_bytes w).a0 = a0
  generalize (word_bytes w).a1 = a1
  generalize (word_bytes w).a2 = a2
  generalize (word_bytes w).a3 = a3
  have e0 : a0 ^^^ (a0 ^^^ a1 ^^^ a2 ^^^ a3 ^^^ (x0 ^^^ x1)) = x0 ^^^ (a1 ^^^ x1) ^^^ a2 ^^^ a3 := by
    ac_nf
    simp only [Nat.xor_self, Nat.xor_zero, Nat.xor_cancel_left]
  have e1 : a1 ^^^ (a0 ^^^ a1 ^^^ a2 ^^^ a3 ^^^ (x1 ^^^ x2)) = a0 ^^^ x1 ^^^ (a2 ^^^ x2) ^^^ a3 := by
    ac_nf
    simp only [Nat.xor_self, Nat.xor_zero, Nat.xor_cancel_left]
  have e2 : a2 ^^^ (a0 ^^^ a1 ^^^ a2 ^^^ a3 ^^^ (x2 ^^^ x3)) = a0 ^^^ a1 ^^^ x2 ^^^ (a3 ^^^ x3) := by
    ac_nf
    simp only [Nat.xor_self, Nat.xor_zero, Nat.xor_cancel_left]
  have e3 : a3 ^^^ (a0 ^^^ a1 ^^^ a2 ^^^ a3 ^^^ (x3 ^^^ x0)) = a0 ^^^ x0 ^^^ a1 ^^^ a2 ^^^ x3 := by
    ac_nf
    simp only [Nat.xor_self, Nat.xor_zero, Nat.xor_cancel_left]
  rw [e0, e1, e2, e3]

/-- C17 (post-state of the reverter): for every array `k` of 44 words of 32 bits,
`unconvert_key(k, 10)` keeps the length 44, leaves the words 0..3 and 40..43 as they are and
replaces each word `k[j]`, `4 <= j <= 39`, by the FIPS-197 `MixColumns` image of its column,
the least significant byte being `a0`: `b0 = 2*a0 + 3*a1 + a2 + a3`,
`b1 = a0 + 2*a1 + 3*a2 + a3`, `b2 = a0 + a1 + 2*a2 + 3*a3`, `b3 = 3*a0 + a1 + a2 + 2*a3` in
GF(2^8), computed from the original bytes of `k[j]` only. -/
theorem unconvert_key_post_state (k : List Nat) (hk : k.length = 44)
    (hw : ∀ w ∈ k, w < 2 ^ 32) :
    (unconvert_key k 10).length = 44 ∧
    (∀ j, j < 4 ∨ 40 ≤ j → (unconvert_key k 10).getD j 0 = k.getD j 0) ∧
    (∀ j, 4 ≤ j → j ≤ 39 →
      (unconvert_key k 10).getD j 0 = le_word (MixColumn (word_bytes (k.getD j 0))) ∧
      le_word (MixColumn (word_bytes (k.getD j 0)))
        = le_word ⟨gf_mul 2 (k.getD j 0 % 256) ^^^ gf_mul 3 (k.getD j 0 / 256 % 256)
              ^^^ (k.getD j 0 / 65536 % 256) ^^^ (k.getD j 0 / 16777216 % 256),
            (k.getD j 0 % 256) ^^^ gf_mul 2 (k.getD j 0 / 256 % 256)
              ^^^ gf_mul 3 (k.getD j 0 / 65536 % 256) ^^^ (k.getD j 0 / 16777216 % 256),
            (k.getD j 0 % 256) ^^^ (k.getD j 0 / 256 % 256)
              ^^^ gf_mul 2 (k.getD j 0 / 65536 % 256) ^^^ gf_mul 3 (k.getD j 0 / 16777216 % 256),
            gf_mul 3 (k.getD j 0 % 256) ^^^ (k.getD j 0 / 256 % 256)
              ^^^ (k.getD j 0 / 65536 % 256) ^^^ gf_mul 2 (k.getD j 0 / 16777216 % 256)⟩) := by
  refine ⟨by rw [unconvert_key_length, hk], fun j hj => ?_, fun j h1 h2 => ⟨?_, rfl⟩⟩
  · rw [unconvert_key_getD k hk j, if_neg (by omega)]
  · rw [unconvert_key_getD k hk j, if_pos ⟨h1, h2⟩]
    apply unconvert_word_mix
    rw [List.getD_eq_getElem _ _ (by omega)]
    exact hw _ (List.getElem_mem _)

theorem unconvert_key_post_state_witness :
    (List.range 44).length = 44 ∧ (∀ w ∈ List.range 44, w < 2 ^ 32) ∧
    (unconvert_key (List.range 44) 10).length = 44 ∧
    (unconvert_key (List.range 44) 10).getD 3 0 = (List.range 44).getD 3 0 ∧
    (unconvert_key (List.range 44) 10).getD 7 0
      = le_word (MixColumn (word_bytes ((List.range 44).getD 7 0))) :=
  have h1 : (List.range 44).length = 44 := List.length_range 44
  have h2 : ∀ w ∈ List.range 44, w < 2 ^ 32 := fun w hw =>
    Nat.lt_trans (List.mem_range.1 hw) (by decide)
  ⟨h1, h2, (unconvert_key_post_state (List.range 44) h1 h2).1,
    (unconvert_key_post_state (List.range 44) h1 h2).2.1 3 (Or.inl (by decide)),
    ((unconvert_key_post_state (List.range 44) h1 h2).2.2 7 (by decide) (by decide)).1⟩


/-! ## The progress value -/

theorem progress_pct_defined (last i : Nat) : progress_pct (last + 1) i ≠ none := by
  unfold progress_pct div_size_t
  by_cases h : (last + 1) / 100 > 0
  · simp only [if_pos h, if_neg (Nat.ne_of_gt h)]
    exact Option.some_ne_none _
  · simp only [if_neg h, if_neg (Nat.succ_ne_zero last)]
    exact Option.some_ne_none _

/-- C19 (progress percentage): for every `last >= 1` the progress computation divides by a
non-zero number, and the branch `i * 100 / last` taken for `last < 100` gives the integer
percentage (98 at `last = 99`, `i = 98`).  The branch `i / increment` taken for `last >= 100`
does not: with `last = 199` the value computed at the scanned offset 198 is 198, while the
integer percentage `198 * 100 / 199` is 99, so the value differs from the percentage and is
greater than 99 inside the loop. -/
theorem progress_overshoots :
    (∀ last i : Nat, progress_pct (last + 1) i ≠ none) ∧
    progress_pct 99 98 = some (98 * 100 / 99) ∧
    1 ≤ 199 ∧ 198 < 199 ∧ progress_pct 199 198 = some 198 ∧ 198 * 100 / 199 = 99 ∧
    ¬ (198 ≤ 99) :=
  ⟨progress_pct_defined, by decide, by decide, by decide, by decide, by decide, by decide⟩


/-! ## The verbose reporter -/

theorem a3_one_window_ok : window_reject (a3_schedule ++ [0]) 0 = false :=
  window_accept_of_hist _ _ (by decide!)

theorem a3_one_sum : residual_sum_256 (word_at (a3_schedule ++ [0]) 0) = 0 := by
  rw [residual_sum_256_congr _ (as_map (aes256_words fips_key_256)) (fun k hk => by
      have e : word_at (a3_schedule ++ [0]) 0 k = word_at a3_schedule 0 k :=
        word_at_embed [] a3_schedule [0] k
          (by rw [a3_schedule, schedule_256_length]; omega)
      rw [e, a3_schedule, word_at_schedule_bytes _ k
        (by rw [KeyExpansion_length _ 8 14 (by omega)]; omega), aes256_words, as_map_words]),
    residual_sum_256_canonical _ fips_key_256_ok.2]

theorem a3_one_length : (a3_schedule ++ [0]).length = 241 := by
  rw [List.length_append, a3_schedule, schedule_256_length]
  rfl

/-- C18 (the verbose reporter and the matched table): without `-v`, `print_key` reads the
words `map[0 .. num_bits/32)` only, and with `-v` every word index it reads for a 128-bit
match is below 44.  For a 256-bit match with `-v` the block `CONSTRAINTS ON ROWS` runs the
rows 1..14 with the stride 8, so `print_key` reads word indices from 60 up to 119, beyond the
60-word table (the rows 1..7 alone stay inside it): on the 241-byte image made of the FIPS-197 AES-256 schedule and one further
byte, the 256-bit match reported at offset 0 with threshold 0 makes it read `map[119]`, the
image bytes 476..479, past the end of the image. -/
theorem verbose_256_reads_past_table :
    (print_key_reads false 128).all (fun k => decide (k < 4)) = true ∧
    (print_key_reads false 256).all (fun k => decide (k < 8)) = true ∧
    (print_key_reads true 128).all (fun k => decide (k < table_words 128)) = true ∧
    (print_key_reads true 256).all (fun k => decide (k < table_words 256)) = false ∧
    (print_key_reads true 256).all (fun k => decide (k ≤ 119)) = true ∧
    119 ∈ print_key_reads true 256 ∧
    (List.range 8 ++ extended_rows 15 0 ++ constraint_rows 256 8 7 1).all
      (fun k => decide (k < table_words 256)) = true ∧
    240 ≤ (a3_schedule ++ [0]).length ∧
    ∃ r ∈ find_keys (a3_schedule ++ [0]) ((a3_schedule ++ [0]).length - 240) 0,
      r.num_bits = 256 ∧ r.address = 0 ∧
      ∃ k ∈ print_key_reads true r.num_bits,
        table_words r.num_bits ≤ k ∧ (a3_schedule ++ [0]).length ≤ r.address + 4 * k := by
  refine ⟨by decide, by decide, by decide!, by decide!, by decide!, by decide!, by decide!, ?_, ?_⟩
  · rw [a3_one_length]; omega
  · obtain ⟨r, hr, h1, h2⟩ := reported_256 (a3_schedule ++ [0]) 0 0
      (by rw [a3_one_length]; omega) a3_one_window_ok (by rw [a3_one_sum]; decide)
    refine ⟨r, hr, h1, h2, 119, ?_, ?_, ?_⟩
    · rw [h1]; decide!
    · rw [h1]; decide
    · rw [h2, a3_one_length]; omega


/-! ## The checked scanner never leaves its arrays -/

theorem byte_at_chk_eq (bmap : List Nat) (j : Nat) (h : j < bmap.length) :
    byte_at_chk bmap j = some (byte_at bmap j) := by
  simp [byte_at_chk, byte_at, List.getD_eq_getElem?_getD, List.getElem?_eq_getElem h]

theorem word_at_chk_eq (bmap : List Nat) (i k : Nat) (h : i + 4 * k + 3 < bmap.length) :
    word_at_chk bmap i k = some (word_at bmap i k) := by
  simp only [word_at_chk, word_at, byte_at_chk_eq bmap (i + 4 * k) (by omega),
    byte_at_chk_eq bmap (i + 4 * k + 1) (by omega), byte_at_chk_eq bmap (i + 4 * k + 2) (by omega),
    byte_at_chk_eq bmap (i + 4 * k + 3) h, Option.some_bind]

theorem scratch_at_chk_eq (newmap : List Nat) (k : Nat) (h : k < newmap.length) :
    scratch_at_chk newmap k = some (as_map newmap k) := by
  simp [scratch_at_chk, as_map, List.getD_eq_getElem?_getD, List.getElem?_eq_getElem h]

theorem residual_128_chk_eq (map : Nat → Option Nat) (m : Nat → Nat)
    (h : ∀ k, k < 44 → map k = some (m k)) (row column : Nat) (h1 : 1 ≤ row) (h2 : row ≤ 10)
    (hc : column ≤ 3) :
    residual_128_chk map row column = some (residual_128 m row column) := by
  unfold residual_128_chk residual_128
  split_ifs
  · simp only [h (4 * row - 1) (by omega), h (4 * (row - 1)) (by omega), h (4 * row) (by omega),
      Option.some_bind]
  · simp only [h (4 * row + column - 1) (by omega), h (4 * (row - 1) + column) (by omega),
      h (4 * row + column) (by omega), Option.some_bind]

theorem columns_128_chk_eq (map : Nat → Option Nat) (m : Nat → Nat)
    (h : ∀ k, k < 44 → map k = some (m k)) (row : Nat) (h1 : 1 ≤ row) (h2 : row ≤ 10) (n : Nat) :
    ∀ (column : Nat) (xc : Int), column + n ≤ 4 →
      columns_128_chk map row n column xc = some (columns_128 m row n column xc) := by
  induction n with
  | zero => intro column xc _; rfl
  | succ n ih =>
    intro column xc hn
    simp only [columns_128_chk, columns_128,
      residual_128_chk_eq map m h row column h1 h2 (by omega), Option.some_bind]
    exact ih _ _ (by omega)

theorem rows_128_chk_eq (map : Nat → Option Nat) (m : Nat → Nat)
    (h : ∀ k, k < 44 → map k = some (m k)) (t : Int) (n : Nat) :
    ∀ (row : Nat) (xc : Int), 1 ≤ row → row + n ≤ 11 →
      rows_128_chk map t n row xc = some (rows_128 m t n row xc) := by
  induction n with
  | zero => intro row xc _ _; rfl
  | succ n ih =>
    intro row xc h1 hn
    simp only [rows_128_chk, rows_128,
      columns_128_chk_eq map m h row h1 (by omega) 4 0 xc (by omega), Option.some_bind]
    split_ifs
    · rfl
    · exact ih _ _ (by omega) (by omega)

theorem residual_256_chk_eq (map : Nat → Option Nat) (m : Nat → Nat)
    (h : ∀ k, k < 60 → map k = some (m k)) (row column : Nat) (h1 : 1 ≤ row) (h2 : row ≤ 7)
    (hc : column ≤ 7) (h7 : row = 7 → column ≤ 3) :
    residual_256_chk map row column = some (residual_256 m row column) := by
  unfold residual_256_chk residual_256
  split_ifs
  · simp only [h (8 * row - 1) (by omega), h (8 * (row - 1)) (by omega), h (8 * row) (by omega),
      Option.some_bind]
  · simp only [h (8 * row + 3) (by omega), h (8 * (row - 1) + 4) (by omega),
      h (8 * row + 4) (by omega), Option.some_bind]
  · simp only [h (8 * row + column - 1) (by omega), h (8 * (row - 1) + column) (by omega),
      h (8 * row + column) (by omega), Option.some_bind]

theorem columns_256_chk_eq (map : Nat → Option Nat) (m : Nat → Nat)
    (h : ∀ k, k < 60 → map k = some (m k)) (row : Nat) (h1 : 1 ≤ row) (h2 : row ≤ 7) (n : Nat) :
    ∀ (column : Nat) (xc : Int), column + n ≤ 8 → (row = 7 → column ≤ 4) →
      columns_256_chk map row n column xc = some (columns_256 m row n column xc) := by
  induction n with
  | zero => intro column xc _ _; rfl
  | succ n ih =>
    intro column xc hn h7
    simp only [columns_256_chk, columns_256]
    split_ifs with hb
    · rfl
    · rw [residual_256_chk_eq map m h row column h1 h2 (by omega) (by omega), Option.some_bind]
      exact ih _ _ (by omega) (by omega)

theorem rows_256_chk_eq (map : Nat → Option Nat) (m : Nat → Nat)
    (h : ∀ k, k < 60 → map k = some (m k)) (t : Int) (n : Nat) :
    ∀ (row : Nat) (xc : Int), 1 ≤ row → row + n ≤ 8 →
      rows_256_chk map t n row xc = some (rows_256 m t n row xc) := by
  induction n with
  | zero => intro row xc _ _; rfl
  | succ n ih =>
    intro row xc h1 hn
    simp only [rows_256_chk, rows_256,
      columns_256_chk_eq map m h row h1 (by omega) 8 0 xc (by omega) (by omega),
      Option.some_bind]
    split_ifs
    · rfl
    · exact ih _ _ (by omega) (by omega)

theorem scratch_set_chk_eq (newmap : List Nat) (k v : Nat) (h : k < newmap.length) :
    scratch_set_chk newmap k v = some (newmap.set k v) := by
  rw [scratch_set_chk, if_pos h]

theorem unconvert_loop_chk_eq (n : Nat) :
    ∀ (p : Nat) (k : List Nat), p + n ≤ k.length →
      unconvert_loop_chk n p k = some (unconvert_loop n p k) := by
  induction n with
  | zero => intro p k _; rfl
  | succ n ih =>
    intro p k h
    simp only [unconvert_loop_chk, unconvert_loop, scratch_at_chk_eq k p (by omega),
      scratch_set_chk_eq k p _ (by omega), Option.some_bind, as_map]
    exact ih _ _ (by rw [List.length_set]; omega)

theorem copy_row_chk_eq (bmap : List Nat) (i : Nat) (dst : List Nat) (drow srow : Nat)
    (hd : 4 * drow + 3 < dst.length) (hs : i + 16 * srow + 15 < bmap.length) :
    copy_row_chk bmap i dst drow srow = some (copy_row bmap i dst drow srow) := by
  simp only [copy_row_chk, copy_row, word_at_chk_eq bmap i (4 * srow) (by omega),
    word_at_chk_eq bmap i (4 * srow + 1) (by omega),
    word_at_chk_eq bmap i (4 * srow + 2) (by omega),
    word_at_chk_eq bmap i (4 * srow + 3) (by omega), Option.some_bind]
  rw [scratch_set_chk_eq _ _ _ (by omega), Option.some_bind,
    scratch_set_chk_eq _ _ _ (by rw [List.length_set]; omega), Option.some_bind,
    scratch_set_chk_eq _ _ _ (by rw [List.length_set, List.length_set]; omega), Option.some_bind,
    scratch_set_chk_eq _ _ _ (by rw [List.length_set, List.length_set, List.length_set]; omega)]

theorem copy_row_length (bmap : List Nat) (i : Nat) (dst : List Nat) (drow srow : Nat) :
    (copy_row bmap i dst drow srow).length = dst.length := by
  simp only [copy_row, List.length_set]

theorem reverse_rows_chk_eq (bmap : List Nat) (i : Nat) (hi : i + 176 ≤ bmap.length) (n : Nat) :
    ∀ (row : Nat) (newmap : List Nat), row + n ≤ 11 → newmap.length = 44 →
      reverse_rows_chk bmap i n row newmap = some (reverse_rows bmap i n row newmap) := by
  induction n with
  | zero => intro row newmap _ _; rfl
  | succ n ih =>
    intro row newmap hn hl
    simp only [reverse_rows_chk, reverse_rows,
      copy_row_chk_eq bmap i newmap row (10 - row) (by omega) (by omega), Option.some_bind]
    exact ih _ _ (by omega) (by rw [copy_row_length, hl])

theorem mapM_some (f : Nat → Option Nat) (g : Nat → Nat) (l : List Nat)
    (h : ∀ x ∈ l, f x = some (g x)) : l.mapM f = some (l.map g) := by
  induction l with
  | nil => rfl
  | cons a l ih =>
    rw [List.mapM_cons, h a (List.mem_cons_self _ _),
      ih (fun x hx => h x (List.mem_cons_of_mem _ hx))]
    rfl


theorem tweak_map_chk_eq (bmap : List Nat) (i tweaks : Nat) (hi : i + 176 ≤ bmap.length) :
    tweak_map_chk bmap i tweaks = some (tweak_map bmap i tweaks) := by
  have hr := reverse_rows_chk_eq bmap i hi 11 0 (List.replicate 44 0) (by omega)
    (List.length_replicate 44 0)
  have hm : (List.range 44).mapM (word_at_chk bmap i)
      = some ((List.range 44).map (word_at bmap i)) :=
    mapM_some _ _ _ (fun k hk => word_at_chk_eq bmap i k (by
      have := List.mem_range.1 hk
      omega))
  have hl : (reverse_rows bmap i 11 0 (List.replicate 44 0)).length = 44 := by
    simp only [reverse_rows, copy_row_length, List.length_replicate]
  unfold tweak_map_chk tweak_map
  rw [hr, hm]
  by_cases h2 : tweaks &&& TWEAK_REVERSE_ORDER ≠ 0 <;>
    by_cases h1 : tweaks &&& TWEAK_INVMIXCOLUMN ≠ 0
  · simp only [if_pos h2, if_pos h1, Option.some_bind, unconvert_key_chk, unconvert_key]
    exact unconvert_loop_chk_eq _ _ _ (by rw [hl]; omega)
  · simp only [if_pos h2, if_neg h1, Option.some_bind]
  · simp only [if_neg h2, if_pos h1, Option.some_bind, unconvert_key_chk, unconvert_key]
    exact unconvert_loop_chk_eq _ _ _ (by rw [List.length_map, List.length_range]; omega)
  · simp only [if_neg h2, if_neg h1, Option.some_bind]

theorem tweak_map_length (bmap : List Nat) (i tweaks : Nat) :
    (tweak_map bmap i tweaks).length = 44 := by
  have hl : (reverse_rows bmap i 11 0 (List.replicate 44 0)).length = 44 := by
    simp only [reverse_rows, copy_row_length, List.length_replicate]
  unfold tweak_map
  split_ifs <;>
    simp only [unconvert_key_length, hl, List.length_map, List.length_range]

theorem fill_freq_chk_eq (bmap : List Nat) (n : Nat) :
    ∀ (j : Nat) (f : Nat → Int), j + n ≤ bmap.length →
      fill_freq_chk bmap n j f = some (fill_freq bmap n j f) := by
  induction n with
  | zero => intro j f _; rfl
  | succ n ih =>
    intro j f h
    simp only [fill_freq_chk, fill_freq, byte_at_chk_eq bmap j (by omega), Option.some_bind]
    exact ih _ _ (by omega)

theorem entropy_chk_eq (st : EntropyState) (bmap : List Nat) (i : Nat)
    (h : i + 176 < bmap.length) : entropy_chk st bmap i = some (entropy st bmap i) := by
  unfold entropy_chk entropy
  rw [fill_freq_chk_eq bmap 176 0 st.byte_freq (by omega), byte_at_chk_eq bmap i (by omega),
    byte_at_chk_eq bmap (i + 176) h]
  cases st.new_call <;> rfl

theorem entropy_chk_out_of_range (st : EntropyState) (bmap : List Nat) (i : Nat)
    (h : bmap.length ≤ i + 176) : entropy_chk st bmap i = none := by
  have e : byte_at_chk bmap (i + 176) = none := by
    simp [byte_at_chk, List.getElem?_eq_none h]
  unfold entropy_chk
  rw [e]
  cases (if st.new_call then fill_freq_chk bmap 176 0 st.byte_freq else some st.byte_freq) with
  | none => rfl
  | some f =>
    cases byte_at_chk bmap i with
    | none => rfl
    | some b => rfl

theorem check_256_chk_eq (bmap : List Nat) (t : Int) (i : Nat) (h : i + 240 ≤ bmap.length) :
    check_256_chk bmap t i = some (check_256 bmap t i) := by
  have hx : xor_count_256_chk (word_at_chk bmap i) t = some (xor_count_256 (word_at bmap i) t) :=
    rows_256_chk_eq _ _ (fun k hk => word_at_chk_eq bmap i k (by omega)) t 7 1 0 (by omega)
      (by omega)
  rw [check_256_chk, hx, Option.some_bind, check_256]

theorem check_128_chk_eq (bmap : List Nat) (t : Int) (i tweaks : Nat)
    (h : i + 176 ≤ bmap.length) :
    check_128_chk bmap t i tweaks = some (check_128 bmap t i tweaks) := by
  have hx : xor_count_128_chk (scratch_at_chk (tweak_map bmap i tweaks)) t
      = some (xor_count_128 (as_map (tweak_map bmap i tweaks)) t) :=
    rows_128_chk_eq _ _ (fun k hk => scratch_at_chk_eq _ k (by rw [tweak_map_length]; exact hk))
      t 10 1 0 (by omega) (by omega)
  rw [check_128_chk, tweak_map_chk_eq bmap i tweaks h, Option.some_bind, hx, Option.some_bind,
    check_128]

theorem tweak_loop_chk_eq (bmap : List Nat) (t : Int) (i : Nat) (h : i + 176 ≤ bmap.length)
    (n : Nat) :
    ∀ tweaks : Nat, tweak_loop_chk bmap t i n tweaks = some (tweak_loop bmap t i n tweaks) := by
  induction n with
  | zero => intro tweaks; rfl
  | succ n ih =>
    intro tweaks
    simp only [tweak_loop_chk, tweak_loop, check_128_chk_eq bmap t i tweaks h, ih,
      Option.some_bind]

theorem scan_offset_chk_eq (bmap : List Nat) (t : Int) (i : Nat) (h : i + 240 ≤ bmap.length) :
    scan_offset_chk bmap t i = some (scan_offset bmap t i) := by
  simp only [scan_offset_chk, scan_offset, check_256_chk_eq bmap t i h,
    tweak_loop_chk_eq bmap t i (by omega), Option.some_bind]

theorem scan_loop_chk_eq (bmap : List Nat) (t : Int) (n : Nat) :
    ∀ (i : Nat) (st : EntropyState), i + n + 240 ≤ bmap.length →
      scan_loop_chk bmap t n i st = some (scan_loop bmap t n i st) := by
  induction n with
  | zero => intro i st _; rfl
  | succ n ih =>
    intro i st h
    simp only [scan_loop_chk, scan_loop, entropy_chk_eq st bmap i (by omega),
      scan_offset_chk_eq bmap t i (by omega), ih (i + 1) _ (by omega), Option.some_bind]
    split_ifs <;> rfl

/-- C14 (in-bounds reads of the scanner): for every image of length `L >= 240` and every
threshold, the scan `find_keys(image, L - 240)` run with every access checked (each read
`bmap[j]` of the entropy filter, of the AES-256 evaluator and of the tweak copies against the
image length, each read and write of `newmap` against its 44 words) never takes an
out-of-range branch: it ends with the reports of the unchecked scan.  At each scanned offset
`i < L - 240` the same holds for the entropy filter, the AES-256 check and the four tweak
buffers, whose length is 44. -/
theorem scanner_reads_in_bounds (image : List Nat) (gThreshold : Int)
    (h : 240 ≤ image.length) :
    find_keys_chk image (image.length - 240) gThreshold
      = some (find_keys image (image.length - 240) gThreshold) ∧
    ∀ i, i < image.length - 240 →
      (∀ st, entropy_chk st image i = some (entropy st image i)) ∧
      check_256_chk image gThreshold i = some (check_256 image gThreshold i) ∧
      ∀ tweaks,
        tweak_map_chk image i tweaks = some (tweak_map image i tweaks) ∧
        (tweak_map image i tweaks).length = 44 ∧
        check_128_chk image gThreshold i tweaks = some (check_128 image gThreshold i tweaks) := by
  refine ⟨scan_loop_chk_eq image gThreshold _ 0 entropy_start (by omega), fun i hi => ?_⟩
  exact ⟨fun st => entropy_chk_eq st image i (by omega),
    check_256_chk_eq image gThreshold i (by omega),
    fun tweaks => ⟨tweak_map_chk_eq image i tweaks (by omega), tweak_map_length image i tweaks,
      check_128_chk_eq image gThreshold i tweaks (by omega)⟩⟩

theorem scanner_reads_in_bounds_witness :
    240 ≤ (a3_schedule ++ [0]).length ∧
    find_keys_chk (a3_schedule ++ [0]) ((a3_schedule ++ [0]).length - 240) 0
      = some (find_keys (a3_schedule ++ [0]) ((a3_schedule ++ [0]).length - 240) 0) :=
  have hl : 240 ≤ (a3_schedule ++ [0]).length := by rw [a3_one_length]; omega
  ⟨hl, (scanner_reads_in_bounds (a3_schedule ++ [0]) 0 hl).1⟩

end AesKeyFind
